import Mathlib

/-!
Verification development for libSUarchive, a single header C library handling
the Sonic Unleashed archive container (.ar), the archive linker (.arl), and
SEGS / DEFLATE decompression.  The definitions below are a shallow embedding
of the C implementation in `libSUarchive.h`: buffers are lists of byte values
(naturals, below 256 in wellformed data), machine integers are naturals with
explicit reductions modulo 2 ^ 32 or 2 ^ 64 where the C arithmetic wraps, and
functions that can hit a fatal assertion (or fail to terminate) return an
`Option`, with `none` standing for the abort.
-/

set_option maxRecDepth 100000

namespace SUA

/-- Little endian read of a 32 bit word from the first four bytes of a list,
as the C cast `*(uint32_t*)p` does on a little endian host; bytes past the end
of the buffer read as zero. -/
def readU32 (l : List Nat) : Nat :=
  l.getD 0 0 + 256 * l.getD 1 0 + 65536 * l.getD 2 0 + 16777216 * l.getD 3 0

/-- Read of one byte. -/
def readU8 (l : List Nat) : Nat := l.getD 0 0

/-- Big endian read of a 16 bit word, as the C code obtains by reading and
then byte swapping on a little endian host. -/
def readU16BE (l : List Nat) : Nat := 256 * l.getD 0 0 + l.getD 1 0

/-- Big endian read of a 32 bit word. -/
def readU32BE (l : List Nat) : Nat :=
  16777216 * l.getD 0 0 + 65536 * l.getD 1 0 + 256 * l.getD 2 0 + l.getD 3 0

/-- Little endian encoding of a 32 bit value into four bytes. -/
def u32le (n : Nat) : List Nat :=
  [n % 256, n / 256 % 256, n / 65536 % 256, n / 16777216 % 256]

/-- `memcpy` of `src` into `dst` at byte position `pos` (the list keeps the
bytes of `dst` outside the written window). -/
def writeBytes (dst : List Nat) (pos : Nat) (src : List Nat) : List Nat :=
  dst.take pos ++ src ++ dst.drop (pos + src.length)

/-- The NUL terminated C string starting at the head of `l`. -/
def cstr (l : List Nat) : List Nat := l.takeWhile (fun b => b != 0)

/-- `siCompressType` from the source. -/
inductive siCompressType where
  | NONE
  | X
  | SEGS
  deriving DecidableEq, Repr

/-- The runtime handle `siArFile` (also used, via a typedef, as `siArlFile`).
`data` is the backing buffer contents, `len` the logical length, `cap` the
buffer capacity, and `curOffset` the private iteration cursor. -/
structure siArFile where
  data : List Nat
  len : Nat
  cap : Nat
  compression : siCompressType
  curOffset : Nat
  deriving DecidableEq, Repr

/-- In the source `siArlFile` is a typedef of `siArFile`. -/
abbrev siArlFile := siArFile

def SISWA_IDENTIFIER_ARL2 : Nat := 0x324C5241

def SISWA_IDENTIFIER_XCOMPRESSION : Nat := 0xEE12F50F

def SISWA_IDENTIFIER_SEGS : Nat := 0x73676573

def SISWA_DEFAULT_STACK_SIZE : Nat := 8 * 1024

/-- The 16 byte archive header written by the create and merge constructors:
unknown 0, headerSizeof 16, entrySizeof 20, alignment 64, little endian. -/
def arHeaderBytes : List Nat := u32le 0 ++ u32le 16 ++ u32le 20 ++ u32le 64

/-- `siswa_arMakeBufferEx`: classify the buffer by its first four little
endian bytes.  The ARL2 magic hits the fatal assertion (`none`); anything
that is not a compression magic is a regular archive. -/
def siswa_arMakeBufferEx (data : List Nat) (len capacity : Nat) : Option siArFile :=
  if len ≤ capacity then
    if readU32 data = SISWA_IDENTIFIER_XCOMPRESSION then
      some { data := data, len := len, cap := capacity, compression := .X, curOffset := 16 }
    else if readU32 data = SISWA_IDENTIFIER_SEGS then
      some { data := data, len := len, cap := capacity, compression := .SEGS, curOffset := 16 }
    else if readU32 data = SISWA_IDENTIFIER_ARL2 then
      none
    else
      some { data := data, len := len, cap := capacity, compression := .NONE, curOffset := 16 }
  else none

/-- `siswa_arCreateArContentEx`: write the fixed archive header at the start
of the caller supplied buffer.  The bytes of the buffer beyond the header are
kept as given (the C leaves them untouched). -/
def siswa_arCreateArContentEx (buffer : List Nat) : Option siArFile :=
  if 16 ≤ buffer.length then
    some { data := arHeaderBytes ++ buffer.drop 16, len := 16, cap := buffer.length,
           compression := .NONE, curOffset := 16 }
  else none

/-- `siswa_arEntryPoll`: return the entry at the cursor and advance the cursor
by the entry size field; at or past `len`, reset the cursor to the header end
and return `none`. -/
def siswa_arEntryPoll (ar : siArFile) : Option Nat × siArFile :=
  if ar.len ≤ ar.curOffset then (none, { ar with curOffset := 16 })
  else (some ar.curOffset,
        { ar with curOffset := ar.curOffset + readU32 (ar.data.drop ar.curOffset) })

/-- `siswa_arEntryGetName` at an entry offset: the NUL terminated string that
follows the 20 byte record. -/
def siswa_arEntryGetName (data : List Nat) (off : Nat) : List Nat :=
  cstr (data.drop (off + 20))

/-- `siswa_arEntryGetData` at an entry offset: `dataSize` bytes starting at
the `offset` field of the record. -/
def siswa_arEntryGetData (data : List Nat) (off : Nat) : List Nat :=
  (data.drop (off + readU32 (data.drop (off + 8)))).take (readU32 (data.drop (off + 4)))

/-- The name comparison used by the find and duplicate scans:
`*name == *entryName && strncmp(name + 1, entryName + 1, nameLen - 1) == 0`.
For a query that is a nonempty NUL free byte string compared against the
stored NUL terminated name, this is exactly: the query is a prefix of the
stored name. -/
def nameMatches (name entryName : List Nat) : Bool :=
  name.isPrefixOf entryName

def arEntryCountAux : Nat → siArFile → Nat
  | 0, _ => 0
  | fuel + 1, ar =>
    match siswa_arEntryPoll ar with
    | (none, _) => 0
    | (some _, ar2) => arEntryCountAux fuel ar2 + 1

/-- `siswa_arGetEntryCount`: poll (a copy of the handle, from its current
cursor) until the end.  The fuel exceeds the number of polls of every
terminating run; on a buffer where the C would loop forever the model stops. -/
def siswa_arGetEntryCount (ar : siArFile) : Nat :=
  arEntryCountAux (ar.len + 1) ar

def arEntryFindAux : Nat → siArFile → List Nat → Option Nat
  | 0, _, _ => none
  | fuel + 1, ar, name =>
    match siswa_arEntryPoll ar with
    | (none, _) => none
    | (some off, ar2) =>
      if nameMatches name (siswa_arEntryGetName ar.data off) then some off
      else arEntryFindAux fuel ar2 name

/-- `siswa_arEntryFindEx`: linear scan from the header end (the find works on
a copy whose cursor is first reset). -/
def siswa_arEntryFindEx (ar : siArFile) (name : List Nat) : Option Nat :=
  arEntryFindAux (ar.len + 1) { ar with curOffset := 16 } name

/-- The duplicate scan of `siswa_arEntryAddEx`: poll a copy of the handle from
its current cursor, remembering the end of table offset; `none` when a
matching name is found. -/
def arAddScanAux : Nat → siArFile → List Nat → Nat → Option Nat
  | 0, _, _, offset => some offset
  | fuel + 1, ar, name, offset =>
    match siswa_arEntryPoll ar with
    | (none, _) => some offset
    | (some off, ar2) =>
      if nameMatches name (siswa_arEntryGetName ar.data off) then none
      else arAddScanAux fuel ar2 name ar2.curOffset

/-- `siswa_arEntryAddEx`.  Result: `none` for the fatal capacity assertion,
`some (false, ar)` when the name already exists (the scan ran on a struct
copy, the handle is returned untouched), `some (true, ar2)` on success. -/
def siswa_arEntryAddEx (ar : siArFile) (name dat : List Nat) :
    Option (Bool × siArFile) :=
  match arAddScanAux (ar.len + 1) ar name 16 with
  | none => some (false, ar)
  | some offset =>
    let esize := (dat.length + name.length + 1 + 20) % 4294967296
    if offset + esize < ar.cap then
      let bytes := u32le esize ++ u32le (dat.length % 4294967296) ++
        u32le ((name.length + 1 + 20) % 4294967296) ++ List.replicate 8 0 ++
        name ++ [0] ++ dat
      some (true, { ar with data := writeBytes ar.data offset bytes, len := ar.len + esize })
    else none

/-- `siswa_arEntryUpdateEx`.  Find the entry, overwrite its `size` and
`dataSize` fields, shift the tail so that everything after the entry is
preserved, write the new payload at the (unchanged) `offset` field, and
adjust `len` by the size delta.  The overlapping `memcpy` of the tail is
modelled with move semantics, which is what the source comment intends. -/
def siswa_arEntryUpdateEx (ar : siArFile) (name dat : List Nat) :
    Option (Bool × siArFile) :=
  match siswa_arEntryFindEx ar name with
  | none => some (false, ar)
  | some off =>
    let oldSize := readU32 (ar.data.drop off)
    let newSize := (dat.length + name.length + 1 + 20) % 4294967296
    let d1 := writeBytes ar.data off (u32le newSize)
    let d2 := writeBytes d1 (off + 4) (u32le (dat.length % 4294967296))
    if off + newSize < ar.cap then
      let tail := (d2.drop (off + oldSize)).take (ar.len - off - oldSize)
      let d3 := writeBytes d2 (off + newSize) tail
      let d4 := writeBytes d3 (off + readU32 (d3.drop (off + 8))) dat
      some (true, { ar with data := d4, len := ar.len + newSize - oldSize })
    else none

/-- `siswa_arlGetHeaderLength`: 8 plus 4 bytes per archive size slot. -/
def siswa_arlGetHeaderLength (arl : siArlFile) : Nat :=
  8 + 4 * readU32 (arl.data.drop 4)

/-- `siswa_arlMakeBufferEx`.  Note that the source initializes the cursor to
`sizeof(siArHeader)` (16 bytes, the archive header), not to the linker
header length.  A buffer that carries neither the XCompression nor the ARL2
magic hits the fatal assertion. -/
def siswa_arlMakeBufferEx (data : List Nat) (len capacity : Nat) : Option siArlFile :=
  if len ≤ capacity then
    if readU32 data = SISWA_IDENTIFIER_XCOMPRESSION then
      some { data := data, len := len, cap := capacity, compression := .X, curOffset := 16 }
    else if readU32 data = SISWA_IDENTIFIER_ARL2 then
      some { data := data, len := len, cap := capacity, compression := .NONE, curOffset := 16 }
    else none
  else none

/-- `siswa_arlCreateArlContentEx`: write the linker header (identifier and
archive count) and zero the per archive size slots. -/
def siswa_arlCreateArlContentEx (buffer : List Nat) (archiveCount : Nat) : Option siArlFile :=
  let length := 8 + 4 * archiveCount
  if length ≤ buffer.length ∧ archiveCount ≠ 0 then
    some { data := u32le SISWA_IDENTIFIER_ARL2 ++ u32le (archiveCount % 4294967296) ++
             List.replicate (4 * archiveCount) 0 ++ buffer.drop length,
           len := length, cap := buffer.length, compression := .NONE, curOffset := length }
  else none

/-- `siswa_arlEntryPoll`: return the entry at the cursor and advance by
`len + 1`; at or past `len`, reset the cursor to the linker header length. -/
def siswa_arlEntryPoll (arl : siArlFile) : Option Nat × siArlFile :=
  if arl.len ≤ arl.curOffset then
    (none, { arl with curOffset := siswa_arlGetHeaderLength arl })
  else (some arl.curOffset,
        { arl with curOffset := arl.curOffset + readU8 (arl.data.drop arl.curOffset) + 1 })

/-- The linker name comparison, reading the raw bytes after the length
prefix (the stored string is not NUL terminated). -/
def arlNameMatches (name : List Nat) (data : List Nat) (off : Nat) : Bool :=
  name.isPrefixOf (data.drop (off + 1))

def arlEntryFindAux : Nat → siArlFile → List Nat → Option Nat
  | 0, _, _ => none
  | fuel + 1, arl, name =>
    match siswa_arlEntryPoll arl with
    | (none, _) => none
    | (some off, arl2) =>
      if arlNameMatches name arl.data off then some off
      else arlEntryFindAux fuel arl2 name

/-- `siswa_arlEntryFindEx`: linear scan from the linker header end. -/
def siswa_arlEntryFindEx (arl : siArlFile) (name : List Nat) : Option Nat :=
  arlEntryFindAux (arl.len + 1) { arl with curOffset := siswa_arlGetHeaderLength arl } name

def arlAddScanAux : Nat → siArlFile → List Nat → Nat → Option Nat
  | 0, _, _, offset => some offset
  | fuel + 1, arl, name, offset =>
    match siswa_arlEntryPoll arl with
    | (none, _) => some offset
    | (some off, arl2) =>
      if arlNameMatches name arl.data off then none
      else arlAddScanAux fuel arl2 name arl2.curOffset

/-- `siswa_arlEntryAddEx`.  On success the length prefix and the name are
written at the end of the table, `len` grows by `1 + nameLen`, and the
archive size slot at `archiveIndex` grows by `sizeof(siArEntry) + nameLen + 1
= 20 + nameLen + 1` (archive entry accounting). -/
def siswa_arlEntryAddEx (arl : siArlFile) (name : List Nat) (archiveIndex : Nat) :
    Option (Bool × siArlFile) :=
  if archiveIndex < readU32 (arl.data.drop 4) then
    match arlAddScanAux (arl.len + 1) arl name (siswa_arlGetHeaderLength arl) with
    | none => some (false, arl)
    | some offset =>
      if offset + 1 + name.length < arl.cap then
        let d1 := writeBytes arl.data offset ([name.length % 256] ++ name)
        let slot := 8 + 4 * archiveIndex
        let d2 := writeBytes d1 slot
          (u32le ((readU32 (d1.drop slot) + 20 + name.length + 1) % 4294967296))
        some (true, { arl with data := d2, len := arl.len + 1 + name.length })
      else none
  else none

/-- `siswa_arlEntryRemoveEx`.  The entry is shifted away and `len` shrinks by
`1 + nameLen`; the archive size slot shrinks by `sizeof(uint8_t) + nameLen =
1 + nameLen` (linker entry accounting, unlike the add). -/
def siswa_arlEntryRemoveEx (arl : siArlFile) (name : List Nat) (archiveIndex : Nat) :
    Option (Bool × siArlFile) :=
  if archiveIndex < readU32 (arl.data.drop 4) then
    match siswa_arlEntryFindEx arl name with
    | none => some (false, arl)
    | some off =>
      let len2 := arl.len - (1 + name.length)
      let d1 := writeBytes arl.data off ((arl.data.drop (off + 1 + name.length)).take (len2 - off))
      let slot := 8 + 4 * archiveIndex
      let d2 := writeBytes d1 slot
        (u32le ((readU32 (d1.drop slot) + 4294967296 - (1 + name.length)) % 4294967296))
      some (true, { arl with data := d2, len := len2 })
  else none

def arlEntryCountAux : Nat → siArlFile → Nat
  | 0, _ => 0
  | fuel + 1, arl =>
    match siswa_arlEntryPoll arl with
    | (none, _) => 0
    | (some _, arl2) => arlEntryCountAux fuel arl2 + 1

/-- `siswa_arlGetEntryCount`: poll a copy of the handle until the end. -/
def siswa_arlGetEntryCount (arl : siArlFile) : Nat :=
  arlEntryCountAux (arl.len + 1) arl

instance : Inhabited siArFile := ⟨⟨[], 0, 0, .NONE, 0⟩⟩

/-!
Abstract archive entries and their byte serialization.  A valid `.ar` buffer
is the 16 byte header followed by the concatenation of entry records; the
lemmas below relate the byte level operations to this abstract view.
-/

/-- An abstract archive entry: name, payload, and the eight filedate bytes. -/
structure ArEntry where
  name : List Nat
  payload : List Nat
  filedate : List Nat
  deriving DecidableEq, Repr

/-- The `size` field of an entry record: `sizeof(siArEntry) + nameLen + 1 +
dataSize`. -/
def esize (e : ArEntry) : Nat := 20 + e.name.length + 1 + e.payload.length

/-- The byte serialization of one entry record: size, dataSize, offset,
filedate, NUL terminated name, payload. -/
def serializeEntry (e : ArEntry) : List Nat :=
  u32le (esize e) ++ u32le e.payload.length ++ u32le (20 + e.name.length + 1) ++
    e.filedate ++ e.name ++ [0] ++ e.payload

def serializeEntries (es : List ArEntry) : List Nat :=
  (es.map serializeEntry).flatten

/-- A full archive buffer: header then entry records. -/
def serializeAr (es : List ArEntry) : List Nat :=
  arHeaderBytes ++ serializeEntries es

/-- Wellformedness of an abstract entry: nonempty NUL free name, byte valued
contents, an eight byte filedate, and a record size below the `uint32_t`
wrap. -/
def wfEntry (e : ArEntry) : Prop :=
  e.name ≠ [] ∧ (∀ b ∈ e.name, b ≠ 0 ∧ b < 256) ∧ (∀ b ∈ e.payload, b < 256) ∧
    e.filedate.length = 8 ∧ (∀ b ∈ e.filedate, b < 256) ∧ esize e < 4294967296

instance (e : ArEntry) : Decidable (wfEntry e) := by
  unfold wfEntry
  infer_instance

/-- The observable iteration of an archive: poll from the header end and read
each entry name and payload. -/
def arIterAux : Nat → siArFile → List (List Nat × List Nat)
  | 0, _ => []
  | fuel + 1, ar =>
    match siswa_arEntryPoll ar with
    | (none, _) => []
    | (some off, ar2) =>
      (siswa_arEntryGetName ar.data off, siswa_arEntryGetData ar.data off) ::
        arIterAux fuel ar2

def arIter (ar : siArFile) : List (List Nat × List Nat) :=
  arIterAux (ar.len + 1) { ar with curOffset := 16 }

/-- The find scan at the abstract level: the offset of the first entry whose
stored name has the query as a prefix, starting at byte offset `base`. -/
def findSerialized (name : List Nat) (base : Nat) : List ArEntry → Option Nat
  | [] => none
  | e :: es =>
    if nameMatches name e.name then some base
    else findSerialized name (base + esize e) es

/-!
The scratch hash set used by the merge engine, and the merge itself.
-/

/-- `siHashTable`: a fixed block of optional byte string keys (the C stores
`char*` pointers into the archive buffers; the model stores the pointed-to
NUL free name bytes). -/
structure siHashTable where
  entries : List (Option (List Nat))
  deriving DecidableEq, Repr

def SI_FNV_OFFSET : Nat := 14695981039346656037

def SI_FNV_PRIME : Nat := 1099511628211

/-- `si_hash_key`: FNV1a over the key bytes with 64 bit wraparound. -/
def si_hash_key (key : List Nat) : Nat :=
  key.foldl (fun h b => (h ^^^ b) * SI_FNV_PRIME % 18446744073709551616) SI_FNV_OFFSET

/-- The probe start slot, `hash & (capacity - 1)`. -/
def htStart (ht : siHashTable) (key : List Nat) : Nat :=
  si_hash_key key &&& (ht.entries.length - 1)

/-- `si_hashtable_exists`: the do/while loop visits every slot exactly once,
starting at the hash index and wrapping, and succeeds iff some slot holds a
string equal key (the comparison is a full `strcmp`). -/
def si_hashtable_exists (ht : siHashTable) (key : List Nat) : Bool :=
  (ht.entries.rotate (htStart ht key)).any (fun e => e == some key)

/-- `si_hashtable_set`: walk from the hash index (wrapping) to the first
empty slot and store the key there; `none` when the table is full, where the
C loops forever. -/
def si_hashtable_set (ht : siHashTable) (key : List Nat) : Option siHashTable :=
  match ((List.range ht.entries.length).map
      (fun i => (htStart ht key + i) % ht.entries.length)).find?
      (fun j => (ht.entries.getD j none).isNone) with
  | some j => some ⟨ht.entries.set j (some key)⟩
  | none => none

/-- The slot count the merge reserves on its 8 KiB stack region:
`SISWA_DEFAULT_STACK_SIZE / sizeof(char*) - sizeof(siHashTable)` = 1008. -/
def mergeTableCapacity : Nat := SISWA_DEFAULT_STACK_SIZE / 8 - 16

/-- The running state of the merge: the scratch set, the running
`totalSize`, and the bytes written to the output buffer so far. -/
structure MergeSt where
  ht : siHashTable
  totalSize : Nat
  acc : List Nat
  deriving DecidableEq, Repr

/-- The per archive loop of `siswa_arMergeMul`: poll each entry, skip names
already in the set, otherwise insert the name (for every archive but the
last) and copy the record verbatim.  `none` models the fatal capacity
assertion and the nonterminating insert on a full table. -/
def mergeArLoop (cap : Nat) (isLast : Bool) (data : List Nat) (len : Nat) :
    Nat → Nat → MergeSt → Option MergeSt
  | 0, _, _ => none
  | fuel + 1, curOff, st =>
    if len ≤ curOff then some st
    else
      let esz := readU32 (data.drop curOff)
      let name := cstr (data.drop (curOff + 20))
      if si_hashtable_exists st.ht name then
        mergeArLoop cap isLast data len fuel (curOff + esz) st
      else
        match (if isLast then some st.ht else si_hashtable_set st.ht name) with
        | none => none
        | some ht2 =>
          if cap < st.totalSize + esz then none
          else mergeArLoop cap isLast data len fuel (curOff + esz)
            ⟨ht2, st.totalSize + esz, st.acc ++ (data.drop curOff).take esz⟩

/-- The outer archive loop of `siswa_arMergeMul`: names of the final archive
(`i = arrayLen - 1`) are not inserted into the set. -/
def mergeGo (cap : Nat) : List siArFile → MergeSt → Option MergeSt
  | [], st => some st
  | [a], st => mergeArLoop cap true a.data a.len (a.len + 1) a.curOffset st
  | a :: rest, st =>
    match mergeArLoop cap false a.data a.len (a.len + 1) a.curOffset st with
    | none => none
    | some st2 => mergeGo cap rest st2

/-- `siswa_arMergeMul`: write the fixed header, run the archive loop with a
fresh scratch set, and build a Regular handle over the written prefix. -/
def siswa_arMergeMul (ars : List siArFile) (capacity : Nat) : Option siArFile :=
  match mergeGo capacity ars ⟨⟨List.replicate mergeTableCapacity none⟩, 16, arHeaderBytes⟩ with
  | none => none
  | some st => siswa_arMakeBufferEx st.acc st.totalSize capacity

/-- The variant of the outer loop that inserts the names of every archive,
the last included. -/
def mergeGoSpec (cap : Nat) : List siArFile → MergeSt → Option MergeSt
  | [], st => some st
  | a :: rest, st =>
    match mergeArLoop cap false a.data a.len (a.len + 1) a.curOffset st with
    | none => none
    | some st2 => mergeGoSpec cap rest st2

/-- Modelled from the spec for the refinement claim C8: the merge variant
that inserts names from every archive including the last, which the spec
asserts emits identical output. -/
def siswa_arMergeMulSpec (ars : List siArFile) (capacity : Nat) : Option siArFile :=
  match mergeGoSpec capacity ars ⟨⟨List.replicate mergeTableCapacity none⟩, 16, arHeaderBytes⟩ with
  | none => none
  | some st => siswa_arMakeBufferEx st.acc st.totalSize capacity

/-- A borrowed handle over a serialized archive, cursor at the header end. -/
def serHandle (es : List ArEntry) : siArFile :=
  { data := serializeAr es, len := (serializeAr es).length,
    cap := (serializeAr es).length, compression := .NONE, curOffset := 16 }

/-- The abstract emission of the merge over one archive: `S` holds the names
already in the scratch set; first occurrences are emitted, and inserted
unless the archive is the last. -/
def emitAr (isLast : Bool) : List (List Nat) → List ArEntry → List ArEntry × List (List Nat)
  | S, [] => ([], S)
  | S, e :: es =>
    if e.name ∈ S then emitAr isLast S es
    else
      let r := emitAr isLast (if isLast then S else e.name :: S) es
      (e :: r.1, r.2)

/-- The abstract emission across a list of archives, last archive special. -/
def mergedEntries : List (List Nat) → List (List ArEntry) → List ArEntry
  | _, [] => []
  | S, [es] => (emitAr true S es).1
  | S, es :: rest => (emitAr false S es).1 ++ mergedEntries (emitAr false S es).2 rest

/-- The abstract emission when every archive inserts its names. -/
def mergedEntriesSpec : List (List Nat) → List (List ArEntry) → List ArEntry
  | _, [] => []
  | S, es :: rest => (emitAr false S es).1 ++ mergedEntriesSpec (emitAr false S es).2 rest

def c3x : ArEntry := ⟨[120], [1], List.replicate 8 0⟩

def c3y : ArEntry := ⟨[121], [2], List.replicate 8 0⟩

def c3y2 : ArEntry := ⟨[121], [9], List.replicate 8 0⟩

def c3z : ArEntry := ⟨[122], [3], List.replicate 8 0⟩

def c8x : ArEntry := ⟨[120], [5], List.replicate 8 0⟩

def c8y : ArEntry := ⟨[121], [6], List.replicate 8 0⟩

def c8a1 : ArEntry := ⟨[97], [1], List.replicate 8 0⟩

def c8a2 : ArEntry := ⟨[97], [2], List.replicate 8 0⟩

/-- `sinfl_read64(ptr)`: 64 bit little endian load, zero past the end of the
input (the C reads whatever trails the buffer). -/
def read64 (data : List Nat) (p : Nat) : Nat :=
  (List.range 8).foldl (fun acc k => acc ||| (data.getD (p + k) 0 <<< (8 * k))) 0

/-- The inflater state: input cursor, bit buffer, bit count, and the two
decode tables (the C keeps them as fixed `uint32_t` arrays inside `sinfl`). -/
structure Sinfl where
  bitptr : Nat
  bitbuf : Nat
  bitcnt : Nat
  lits : List Nat
  dsts : List Nat
  deriving DecidableEq, Repr

def sinfl_refill (data : List Nat) (s : Sinfl) : Sinfl :=
  { s with
    bitbuf := (s.bitbuf ||| (read64 data s.bitptr <<< s.bitcnt)) % 18446744073709551616,
    bitptr := s.bitptr + (63 - s.bitcnt) / 8,
    bitcnt := s.bitcnt ||| 56 }

def sinfl_peek (s : Sinfl) (cnt : Nat) : Nat :=
  s.bitbuf &&& (1 <<< cnt - 1)

def sinfl_eat (s : Sinfl) (cnt : Nat) : Sinfl :=
  { s with bitbuf := s.bitbuf >>> cnt, bitcnt := s.bitcnt - cnt }

/-- `sinfl__get`: peek then eat. -/
def sinfl_xget (s : Sinfl) (cnt : Nat) : Nat × Sinfl :=
  (sinfl_peek s cnt, sinfl_eat s cnt)

/-- `sinfl_get`: refill then get. -/
def sinfl_get (data : List Nat) (s : Sinfl) (cnt : Nat) : Nat × Sinfl :=
  sinfl_xget (sinfl_refill data s) cnt

def bsrAux : Nat → Nat → Nat
  | 0, _ => 0
  | f + 1, n => if n < 2 then 0 else bsrAux f (n / 2) + 1

/-- `sinfl_bsr` on a nonzero word is the index of the highest set bit. -/
def sinfl_bsr (n : Nat) : Nat := bsrAux 64 n

/-- The code generator state of `sinfl_build`: current code length, count of
codes left at this length, the bit reversed code word, and the symbols
sorted by code length (consumed from the head). -/
structure SinflGen where
  len : Nat
  cnt : Nat
  word : Nat
  sorted : List Nat
  deriving DecidableEq, Repr

/-- Duplicate the first `tblEnd` table entries right after themselves
(`memcpy(&tbl[tbl_end], tbl, tbl_end * 4)`). -/
def tblCopy (tbl : List Nat) (tblEnd : Nat) : List Nat :=
  writeBytes tbl tblEnd (tbl.take tblEnd)

/-- The `while (gen->len < tbl_bits)` duplication run of `sinfl_build_tbl`,
`k` iterations. -/
def buildTblFill (tbl : List Nat) (tblEnd : Nat) : Nat → List Nat
  | 0 => tbl
  | k + 1 => buildTblFill (tblCopy tbl tblEnd) (2 * tblEnd) k

/-- `do { gen->len += 1; if len <= tbl_bits copy; } while (!(gen->cnt =
cnt[gen->len]))` — advance to the next populated code length, doubling the
table along the way; also the initial scan (without doubling). -/
def buildTblSkip (tblBits : Nat) (cnt : List Nat) :
    Nat → Nat → List Nat → Nat → Option (Nat × Nat × List Nat × Nat)
  | 0, _, _, _ => none
  | f + 1, len, tbl, tblEnd =>
    let len2 := len + 1
    let tbl2 := if len2 ≤ tblBits then tblCopy tbl tblEnd else tbl
    let tblEnd2 := if len2 ≤ tblBits then 2 * tblEnd else tblEnd
    if cnt.getD len2 0 ≠ 0 then some (len2, cnt.getD len2 0, tbl2, tblEnd2)
    else buildTblSkip tblBits cnt f len2 tbl2 tblEnd2

/-- The main loop of `sinfl_build_tbl`: one iteration of the inner do/while
per fuel unit.  Returns `(true, gen, tbl)` when the table is complete at
`tbl_bits` (the C returns 1) and `(false, gen, tbl)` when codes longer than
`tbl_bits` remain (the C returns 0 and the caller builds sub tables). -/
def buildTblMain (tblBits : Nat) (cnt : List Nat) :
    Nat → SinflGen → List Nat → Nat → Option (Bool × SinflGen × List Nat)
  | 0, _, _, _ => none
  | f + 1, gen, tbl, tblEnd =>
    if tblBits < gen.len then some (false, gen, tbl)
    else
      let tbl2 := tbl.set gen.word ((gen.sorted.getD 0 0 <<< 16) ||| gen.len)
      let gen2 : SinflGen := { gen with sorted := gen.sorted.tail }
      if gen2.word = tblEnd - 1 then
        some (true, { gen2 with len := tblBits }, buildTblFill tbl2 tblEnd (tblBits - gen2.len))
      else
        let bit := 1 <<< sinfl_bsr (gen2.word ^^^ (tblEnd - 1))
        let word2 := (gen2.word &&& (bit - 1)) ||| bit
        let cnt2 := gen2.cnt - 1
        if cnt2 ≠ 0 then
          buildTblMain tblBits cnt f { gen2 with word := word2, cnt := cnt2 } tbl2 tblEnd
        else
          match buildTblSkip tblBits cnt 18 gen2.len tbl2 tblEnd with
          | none => none
          | some (len2, c2, tbl3, tblEnd2) =>
            buildTblMain tblBits cnt f
              { len := len2, cnt := c2, word := word2, sorted := gen2.sorted } tbl3 tblEnd2

/-- `sinfl_build_tbl` with its entry scan. -/
def sinfl_build_tbl (tblBits : Nat) (cnt : List Nat) (gen : SinflGen)
    (tbl : List Nat) : Option (Bool × SinflGen × List Nat) :=
  match buildTblSkip tblBits cnt 18 (gen.len - 1) tbl 0 with
  | none => none
  | some (len0, c0, _, _) =>
    buildTblMain tblBits cnt 700 { gen with len := len0, cnt := c0 } tbl (1 <<< len0)

/-- The sub table fill do/while write count: writes at `i`, `i+stride`, ...
while the incremented index stays below `tblEnd` (at least one write). -/
def fillStride (entry stride : Nat) : Nat → Nat → List Nat → List Nat
  | 0, _, tbl => tbl
  | k + 1, i, tbl => fillStride entry stride k (i + stride) (tbl.set i entry)

/-- `while (used < (1 << sub_bits)) { sub_bits++; used = (used << 1) +
cnt[tbl_bits + sub_bits]; }`. -/
def growSub (tblBits : Nat) (cnt : List Nat) : Nat → Nat → Nat → Option Nat
  | 0, _, _ => none
  | f + 1, subBits, used =>
    if used < 1 <<< subBits then
      growSub tblBits cnt f (subBits + 1)
        ((used <<< 1) + cnt.getD (tblBits + subBits + 1) 0)
    else some subBits

/-- `gen->cnt -= 1; while (!gen->cnt) gen->cnt = cnt[++gen->len];`. -/
def subSkip (cnt : List Nat) : Nat → Nat → Nat → Option (Nat × Nat)
  | 0, _, _ => none
  | f + 1, len, c =>
    if c ≠ 0 then some (len, c)
    else subSkip cnt f (len + 1) (cnt.getD (len + 1) 0)

/-- `sinfl_build_subtbl`, one outer iteration per fuel unit. -/
def buildSubLoop (tblBits : Nat) (cnt : List Nat) :
    Nat → SinflGen → List Nat → Nat → Nat → Nat → Nat → Option (List Nat)
  | 0, _, _, _, _, _, _ => none
  | f + 1, gen, tbl, subBits, subStart, subPre, tblEnd =>
    let fresh := gen.word &&& (1 <<< tblBits - 1) ≠ subPre
    match (if fresh then growSub tblBits cnt 18 (gen.len - tblBits) gen.cnt
           else some subBits) with
    | none => none
    | some subBits2 =>
      let subPre2 := if fresh then gen.word &&& (1 <<< tblBits - 1) else subPre
      let subStart2 := if fresh then tblEnd else subStart
      let tblEnd2 := if fresh then subStart2 + (1 <<< subBits2) else tblEnd
      let tbl2 := if fresh then
          tbl.set subPre2 ((subStart2 <<< 16) ||| 0x10 ||| (subBits2 &&& 0xf))
        else tbl
      let entry := (gen.sorted.getD 0 0 <<< 16) ||| ((gen.len - tblBits) &&& 0xf)
      let sorted2 := gen.sorted.tail
      let i0 := subStart2 + (gen.word >>> tblBits)
      let stride := 1 <<< (gen.len - tblBits)
      let steps := 1 + (tblEnd2 - (i0 + stride) + stride - 1) / stride
      let tbl3 := fillStride entry stride steps i0 tbl2
      if gen.word = 1 <<< gen.len - 1 then some tbl3
      else
        let bit := 1 <<< sinfl_bsr (gen.word ^^^ (1 <<< gen.len - 1))
        let word2 := (gen.word &&& (bit - 1)) ||| bit
        match subSkip cnt 18 gen.len (gen.cnt - 1) with
        | none => none
        | some (len2, c2) =>
          buildSubLoop tblBits cnt f
            { len := len2, cnt := c2, word := word2, sorted := sorted2 }
            tbl3 subBits2 subStart2 subPre2 tblEnd2

/-- `sinfl_build`: histogram the code lengths, counting sort the symbols,
short circuit incomplete codes to an all literal zero table, otherwise build
the primary table and, if needed, the sub tables. -/
def sinfl_build (tbl : List Nat) (lens : List Nat) (tblBits maxlen symcnt : Nat) :
    Option (List Nat) :=
  let cnt := (List.range 16).map (fun L => ((lens.take symcnt).countP (fun l => l = L)))
  let used := (List.range maxlen).foldl (fun u i => (u <<< 1) + cnt.getD (i + 1) 0) 0
  let sortedAll := (List.range 16).flatMap
    (fun L => (List.range symcnt).filter (fun i => lens.getD i 0 = L))
  if used < 1 <<< maxlen then
    some ((List.range (1 <<< tblBits)).foldl (fun t i => t.set i 1) tbl)
  else
    let gen : SinflGen := { len := 1, cnt := 0, word := 0,
                            sorted := sortedAll.drop (cnt.getD 0 0) }
    match sinfl_build_tbl tblBits cnt gen tbl with
    | none => none
    | some (true, _, tbl2) => some tbl2
    | some (false, gen2, tbl2) =>
      buildSubLoop tblBits cnt 700 gen2 tbl2 0 0 18446744073709551615 (1 <<< tblBits)

/-- `sinfl_decode`: primary table lookup with an optional sub table hop. -/
def sinfl_decode (s : Sinfl) (tbl : List Nat) (bitLen : Nat) : Nat × Sinfl :=
  let idx := sinfl_peek s bitLen
  let key := tbl.getD idx 0
  if key &&& 0x10 ≠ 0 then
    let len := key &&& 0x0f
    let s2 := sinfl_eat s bitLen
    let idx2 := sinfl_peek s2 len
    let key2 := tbl.getD (((key >>> 16) &&& 0xffff) + idx2) 0
    (((key2 >>> 16) &&& 0x0fff), sinfl_eat s2 (key2 &&& 0x0f))
  else
    (((key >>> 16) &&& 0x0fff), sinfl_eat s (key &&& 0x0f))

def order : List Nat := [16, 17, 18, 0, 8, 7, 9, 6, 10, 5, 11, 4, 12, 3, 13, 2, 14, 1, 15]

def dbase : List Nat :=
  [1, 2, 3, 4, 5, 7, 9, 13, 17, 25, 33, 49, 65, 97] ++
    [129, 193, 257, 385, 513, 769, 1025, 1537] ++
    [2049, 3073, 4097, 6145, 8193, 12289, 16385, 24577] ++ [0, 0]

def dbits : List Nat :=
  [0, 0, 0, 0, 1, 1, 2, 2, 3, 3, 4, 4, 5, 5] ++
    [6, 6, 7, 7, 8, 8, 9, 9, 10, 10] ++ [11, 11, 12, 12, 13, 13, 0, 0]

def lbase : List Nat :=
  [3, 4, 5, 6, 7, 8, 9, 10, 11, 13, 15, 17, 19, 23] ++
    [27, 31, 35, 43, 51, 59, 67, 83] ++
    [99, 115, 131, 163, 195, 227, 258, 0, 0]

def lbits : List Nat :=
  [0, 0, 0, 0, 0, 0, 0, 0, 1, 1, 1, 1, 2, 2] ++
    [2, 2, 3, 3, 3, 3, 4, 4, 4, 4] ++ [5, 5, 5, 5, 0, 0, 0]

/-- The byte wise overlapping match copy: append `out[src]`, `out[src+1]`,
... one byte at a time, reading bytes the copy itself appended when the
offset is shorter than the length. -/
def matchCopy : Nat → Nat → List Nat → List Nat
  | 0, _, out => out
  | k + 1, src, out => matchCopy k (src + 1) (out ++ [out.getD src 0])

/-- `nlens[order[n]] = sinfl_get(&s, 3)` for `n < nlen`. -/
def readNlens (data : List Nat) : Nat → Nat → List Nat → Sinfl → List Nat × Sinfl
  | 0, _, nlens, s => (nlens, s)
  | k + 1, n, nlens, s =>
    let r := sinfl_get data s 3
    readNlens data k (n + 1) (nlens.set (order.getD n 0) r.1) r.2

/-- The dynamic block code length decode loop (`for (n = 0; n < nlit + ndist;)`). -/
def dynLens (data : List Nat) (hlens : List Nat) (total : Nat) :
    Nat → Nat → List Nat → Sinfl → Option (List Nat × Sinfl)
  | 0, _, _, _ => none
  | f + 1, n, lens, s =>
    if n < total then
      let s1 := sinfl_refill data s
      let d := sinfl_decode s1 hlens 7
      let sym := d.1
      if sym = 16 then
        let r := sinfl_get data d.2 2
        let i := 3 + r.1
        dynLens data hlens total f (n + i)
          (writeBytes lens n (List.replicate i (lens.getD (n - 1) 0))) r.2
      else if sym = 17 then
        let r := sinfl_get data d.2 3
        let i := 3 + r.1
        dynLens data hlens total f (n + i) (writeBytes lens n (List.replicate i 0)) r.2
      else if sym = 18 then
        let r := sinfl_get data d.2 7
        let i := 11 + r.1
        dynLens data hlens total f (n + i) (writeBytes lens n (List.replicate i 0)) r.2
      else
        dynLens data hlens total f (n + 1) (lens.set n sym) d.2
    else some (lens, s)

/-- The BULK decode loop, one literal pair or match per iteration; a decoded
non literal symbol is carried to the next step in `pend`.  Returns
`(true, out, s)` where the C returns from the function, `(false, out, s)` at
an end of block with more blocks to come. -/
def bulkLoop (data : List Nat) (capacity : Nat) (lits dsts : List Nat) (last : Nat) :
    Nat → Option Nat → List Nat → Sinfl → Option (Bool × List Nat × Sinfl)
  | 0, _, _, _ => none
  | f + 1, pend, out, s =>
    match pend with
    | none =>
      let s1 := sinfl_refill data s
      let d := sinfl_decode s1 lits 10
      if d.1 < 256 then
        if capacity ≤ out.length then some (true, out, d.2)
        else
          let o := out ++ [d.1]
          let d2 := sinfl_decode d.2 lits 10
          if d2.1 < 256 then bulkLoop data capacity lits dsts last f none (o ++ [d2.1]) d2.2
          else bulkLoop data capacity lits dsts last f (some d2.1) o d2.2
      else bulkLoop data capacity lits dsts last f (some d.1) out d.2
    | some t =>
      if t = 256 then
        if last ≠ 0 then some (true, out, s) else some (false, out, s)
      else if 286 ≤ t then some (true, out, s)
      else
        let q := t - 257
        let r1 := sinfl_xget s (lbits.getD q 0)
        let lenM := r1.1 + lbase.getD q 0
        let d2 := sinfl_decode r1.2 dsts 8
        let r2 := sinfl_xget d2.2 (dbits.getD d2.1 0)
        let offs := r2.1 + dbase.getD d2.1 0
        if out.length < offs then some (true, out, r2.2)
        else bulkLoop data capacity lits dsts last f none
          (matchCopy lenM (out.length - offs) out) r2.2

inductive SinflMode
  | HDR
  | STORED
  | FIXED
  | DYNAMIC
  | BULK

/-- The outer state machine of `siswa_decompressDeflate`. -/
def inflateLoop (data : List Nat) (length capacity : Nat) :
    Nat → SinflMode → Nat → List Nat → Sinfl → Option (List Nat)
  | 0, _, _, _, _ => none
  | f + 1, mode, last, out, s =>
    match mode with
    | .HDR =>
      let s1 := sinfl_refill data s
      let r1 := sinfl_xget s1 1
      let r2 := sinfl_xget r1.2 2
      if r2.1 = 0 then inflateLoop data length capacity f .STORED r1.1 out r2.2
      else if r2.1 = 1 then inflateLoop data length capacity f .FIXED r1.1 out r2.2
      else if r2.1 = 2 then inflateLoop data length capacity f .DYNAMIC r1.1 out r2.2
      else some out
    | .STORED =>
      let r0 := sinfl_xget s (s.bitcnt &&& 7)
      let r1 := sinfl_xget r0.2 16
      let r2 := sinfl_xget r1.2 16
      let len := r1.1
      let nlen := r2.1
      let s3 := { r2.2 with bitptr := r2.2.bitptr - r2.2.bitcnt / 8, bitbuf := 0, bitcnt := 0 }
      if len ≠ nlen ^^^ 65535 ∨ length - s3.bitptr < len ∨ len = 0 then some out
      else
        let out2 := out ++ (List.range len).map (fun k => data.getD (s3.bitptr + k) 0)
        let s4 := { s3 with bitptr := s3.bitptr + len }
        if last ≠ 0 then some out2
        else inflateLoop data length capacity f .HDR last out2 s4
    | .FIXED =>
      let lens := List.replicate 144 8 ++ List.replicate 112 9 ++ List.replicate 24 7 ++
        List.replicate 8 8 ++ List.replicate 32 5
      match sinfl_build s.lits lens 10 15 288 with
      | none => none
      | some lits2 =>
        match sinfl_build s.dsts (lens.drop 288) 8 15 32 with
        | none => none
        | some dsts2 =>
          inflateLoop data length capacity f .BULK last out { s with lits := lits2, dsts := dsts2 }
    | .DYNAMIC =>
      let s1 := sinfl_refill data s
      let rA := sinfl_xget s1 5
      let nlit := 257 + rA.1
      let rB := sinfl_xget rA.2 5
      let ndist := 1 + rB.1
      let rC := sinfl_xget rB.2 4
      let nlen := 4 + rC.1
      let rn := readNlens data nlen 0 (List.replicate 19 0) rC.2
      match sinfl_build (List.replicate 128 0) rn.1 7 7 19 with
      | none => none
      | some hlens =>
        match dynLens data hlens (nlit + ndist) 512 0 (List.replicate 320 0) rn.2 with
        | none => none
        | some (lens, s2) =>
          match sinfl_build s2.lits lens 10 15 nlit with
          | none => none
          | some lits2 =>
            match sinfl_build s2.dsts (lens.drop nlit) 8 15 ndist with
            | none => none
            | some dsts2 =>
              inflateLoop data length capacity f .BULK last out
                { s2 with lits := lits2, dsts := dsts2 }
    | .BULK =>
      match bulkLoop data capacity s.lits s.dsts last
          (2 * capacity + 16 * length + 64) none out s with
      | none => none
      | some (true, out2, _) => some out2
      | some (false, out2, s2) => inflateLoop data length capacity f .HDR last out2 s2

/-- `siswa_decompressDeflate`: run the state machine from HDR over a zero
initialized inflater state; the result is the byte sequence written to
`out` (the C returns its length). -/
def siswa_decompressDeflate (data : List Nat) (length capacity : Nat) : Option (List Nat) :=
  inflateLoop data length capacity (8 * length + 64) .HDR 0 []
    { bitptr := 0, bitbuf := 0, bitcnt := 0,
      lits := List.replicate 1334 0, dsts := List.replicate 402 0 }

def c5input : List Nat := [75, 76, 42, 74, 76, 78, 76, 73, 76, 42, 74, 4, 0]

def c5output : List Nat := [97, 98, 114, 97, 99, 97, 100, 97, 98, 114, 97]

/-- One pass of the SEGS chunk loop (`for (; entry < end; entry += 1)`):
read the big endian chunk record, decrement the stored offset, rebase a
zero first offset past the header, widen a zero size to 0xFFFF, copy the
chunk bytes verbatim when size equals zSize or inflate them otherwise, and
advance the output cursor by `size + 1`. -/
def segsChunkLoop (data : List Nat) (baseOffset : Nat) :
    Nat → Nat → Nat → Nat → List Nat → Option (List Nat)
  | 0, _, _, _, out => some out
  | k + 1, j, curOut, leftCap, out =>
    let base := 16 + 8 * j
    let zSize := readU16BE (data.drop base)
    let size0 := readU16BE (data.drop (base + 2))
    let offRaw := readU32BE (data.drop (base + 4))
    let off1 := (offRaw + 4294967295) % 4294967296
    let off := if j = 0 ∧ off1 = 0 then off1 + baseOffset else off1
    let size := if size0 = 0 then 65535 else size0
    match (if size = zSize then some ((data.drop off).take size)
           else siswa_decompressDeflate (data.drop off) zSize leftCap) with
    | none => none
    | some bytes =>
      segsChunkLoop data baseOffset k (j + 1) (curOut + size + 1) (leftCap - size)
        (writeBytes out curOut bytes)

/-- `siswa_arlDecompressSegs` (and `siswa_arDecompressSegs`, which casts and
calls it): read the big endian chunk count and full size, require enough
capacity (fatal assert otherwise), run the chunk loop over `out`, and rebind
the handle to the written buffer as a Regular archive. -/
def siswa_arlDecompressSegs (arl : siArlFile) (out : List Nat) (capacity : Nat) :
    Option siArlFile :=
  if arl.compression ≠ siCompressType.SEGS then none
  else
    let chunks := readU16BE (arl.data.drop 6)
    let fullSize := readU32BE (arl.data.drop 8)
    if capacity < fullSize then none
    else
      match segsChunkLoop arl.data (16 + 8 * chunks) chunks 0 0 capacity out with
      | none => none
      | some out2 =>
        some { arl with data := out2, len := fullSize, cap := capacity,
                        compression := siCompressType.NONE }

def c1buf : List Nat := [115, 101, 103, 115, 0, 0, 0, 2, 0, 0, 0, 4, 0, 0, 0, 4,
  0, 2, 0, 2, 0, 0, 0, 33, 0, 2, 0, 2, 0, 0, 0, 35, 170, 187, 204, 221]

def c1arl : siArlFile :=
  { data := c1buf, len := 36, cap := 36, compression := siCompressType.SEGS,
    curOffset := 16 }

/-! Concrete fixtures used by the theorems below. -/

/-- Entries for the C4 witness: names `aa`, `bb`, `cc`. -/
def c4a : ArEntry := ⟨[97, 97], [1], List.replicate 8 0⟩

def c4b : ArEntry := ⟨[98, 98], [2], List.replicate 8 0⟩

def c4c : ArEntry := ⟨[99, 99], [3], List.replicate 8 0⟩

/-- A borrowed archive holding `[c4a, c4b, c4c]` with 32 bytes of headroom. -/
def c4ar : siArFile :=
  { data := serializeAr [c4a, c4b, c4c] ++ List.replicate 32 0,
    len := (serializeAr [c4a, c4b, c4c]).length,
    cap := (serializeAr [c4a, c4b, c4c] ++ List.replicate 32 0).length,
    compression := .NONE, curOffset := 16 }

/-- Entries for the C4 counterexample: the name of the first entry (`xy`)
has the name of the second entry (`x`) as a proper prefix. -/
def c4xa : ArEntry := ⟨[120, 121], [1], List.replicate 8 0⟩

def c4xb : ArEntry := ⟨[120], [2], List.replicate 8 0⟩

def c4xc : ArEntry := ⟨[122], [3], List.replicate 8 0⟩

def c4xar : siArFile :=
  { data := serializeAr [c4xa, c4xb, c4xc] ++ List.replicate 64 0,
    len := (serializeAr [c4xa, c4xb, c4xc]).length,
    cap := (serializeAr [c4xa, c4xb, c4xc] ++ List.replicate 64 0).length,
    compression := .NONE, curOffset := 16 }

def c4xres : siArFile :=
  ((siswa_arEntryUpdateEx c4xar [120] [9]).map Prod.snd).getD default

/-- The name `msg.txt` as bytes. -/
def msgName : List Nat := [109, 115, 103, 46, 116, 120, 116]

/-- The payload `Hello` as bytes. -/
def helloBytes : List Nat := [72, 101, 108, 108, 111]

/-- Scenario A: create an empty archive of capacity 512 and add
`(msg.txt, Hello)`; this is the resulting handle. -/
def scenarioA : siArFile :=
  (((siswa_arCreateArContentEx (List.replicate 512 0)).bind
      (fun ar => siswa_arEntryAddEx ar msgName helloBytes)).map Prod.snd).getD default

/-- A fresh one slot linker built in a 64 byte buffer. -/
def arlC2base : siArlFile :=
  (siswa_arlCreateArlContentEx (List.replicate 64 0) 1).getD default

/-- The linker after adding the one byte name `a` to archive index 0. -/
def arlC2added : siArlFile :=
  ((siswa_arlEntryAddEx arlC2base [97] 0).map Prod.snd).getD default

/-- The linker after removing that entry again. -/
def arlC2removed : siArlFile :=
  ((siswa_arlEntryRemoveEx arlC2added [97] 0).map Prod.snd).getD default

/-- An ARL2 buffer whose header names a single archive (header length 12)
followed by one linker entry with the six byte name `abcdef`. -/
def arlCount1Buf : List Nat :=
  u32le SISWA_IDENTIFIER_ARL2 ++ u32le 1 ++ u32le 0 ++ [6, 97, 98, 99, 100, 101, 102]

/-- The handle built over that buffer. -/
def arlCount1Handle : siArlFile :=
  (siswa_arlMakeBufferEx arlCount1Buf 19 19).getD default

theorem serializeEntry_length (e : ArEntry) (h8 : e.filedate.length = 8) :
    (serializeEntry e).length = esize e := by
  simp [serializeEntry, u32le, esize, h8]
  omega

theorem serializeEntry_length_pos (e : ArEntry) : 0 < (serializeEntry e).length := by
  simp [serializeEntry, u32le]

theorem readU32_u32le_append (n : Nat) (rest : List Nat) (h : n < 4294967296) :
    readU32 (u32le n ++ rest) = n := by
  simp [readU32, u32le]
  omega

theorem cstr_append_zero (name rest : List Nat) (h : ∀ b ∈ name, b ≠ 0) :
    cstr (name ++ 0 :: rest) = name := by
  induction name with
  | nil => simp [cstr]
  | cons a l ih =>
    have ha : a ≠ 0 := h a (by simp)
    simp only [cstr, List.cons_append, List.takeWhile_cons]
    rw [if_pos (by simpa using ha)]
    have := ih (fun b hb => h b (by simp [hb]))
    simpa [cstr] using this

/-- The five field reads of an entry record at the head of a buffer. -/
theorem serializeEntry_reads (e : ArEntry) (rest : List Nat) (hwf : wfEntry e) :
    readU32 (serializeEntry e ++ rest) = esize e ∧
    readU32 ((serializeEntry e ++ rest).drop 4) = e.payload.length ∧
    readU32 ((serializeEntry e ++ rest).drop 8) = 20 + e.name.length + 1 ∧
    cstr ((serializeEntry e ++ rest).drop 20) = e.name ∧
    ((serializeEntry e ++ rest).drop (20 + e.name.length + 1)).take e.payload.length
      = e.payload := by
  obtain ⟨hne, hnb, hpb, h8, hfb, hlt⟩ := hwf
  have hplt : e.payload.length < 4294967296 := by
    unfold esize at hlt; omega
  have holt : 20 + e.name.length + 1 < 4294967296 := by
    unfold esize at hlt; omega
  refine ⟨?_, ?_, ?_, ?_, ?_⟩
  · rw [serializeEntry, List.append_assoc, List.append_assoc, List.append_assoc,
      List.append_assoc, List.append_assoc, List.append_assoc]
    exact readU32_u32le_append _ _ hlt
  · rw [serializeEntry]
    rw [show u32le (esize e) ++ u32le e.payload.length ++ u32le (20 + e.name.length + 1) ++
        e.filedate ++ e.name ++ [0] ++ e.payload ++ rest =
      u32le (esize e) ++ (u32le e.payload.length ++ (u32le (20 + e.name.length + 1) ++
        e.filedate ++ e.name ++ [0] ++ e.payload ++ rest)) by simp]
    rw [List.drop_left' (by simp [u32le] : (u32le (esize e)).length = 4)]
    exact readU32_u32le_append _ _ hplt
  · rw [serializeEntry]
    rw [show u32le (esize e) ++ u32le e.payload.length ++ u32le (20 + e.name.length + 1) ++
        e.filedate ++ e.name ++ [0] ++ e.payload ++ rest =
      (u32le (esize e) ++ u32le e.payload.length) ++ (u32le (20 + e.name.length + 1) ++
        (e.filedate ++ e.name ++ [0] ++ e.payload ++ rest)) by simp]
    rw [List.drop_left' (by simp [u32le] : (u32le (esize e) ++ u32le e.payload.length).length = 8)]
    rw [← List.append_assoc]
    exact readU32_u32le_append _ _ holt
  · rw [serializeEntry]
    rw [show u32le (esize e) ++ u32le e.payload.length ++ u32le (20 + e.name.length + 1) ++
        e.filedate ++ e.name ++ [0] ++ e.payload ++ rest =
      (u32le (esize e) ++ u32le e.payload.length ++ u32le (20 + e.name.length + 1) ++
        e.filedate) ++ (e.name ++ 0 :: (e.payload ++ rest)) by simp]
    rw [List.drop_left' (by simp [u32le, h8])]
    exact cstr_append_zero _ _ (fun b hb => (hnb b hb).1)
  · rw [serializeEntry]
    rw [show u32le (esize e) ++ u32le e.payload.length ++ u32le (20 + e.name.length + 1) ++
        e.filedate ++ e.name ++ [0] ++ e.payload ++ rest =
      (u32le (esize e) ++ u32le e.payload.length ++ u32le (20 + e.name.length + 1) ++
        e.filedate ++ e.name ++ [0]) ++ (e.payload ++ rest) by simp]
    rw [List.drop_left' (by simp [u32le, h8]; omega)]
    exact List.take_left' rfl

theorem arEntryPoll_none (ar : siArFile) (h : ar.len ≤ ar.curOffset) :
    siswa_arEntryPoll ar = (none, { ar with curOffset := 16 }) := by
  unfold siswa_arEntryPoll
  rw [if_pos h]

theorem arEntryPoll_some (ar : siArFile) (h : ar.curOffset < ar.len) :
    siswa_arEntryPoll ar = (some ar.curOffset,
      { ar with curOffset := ar.curOffset + readU32 (ar.data.drop ar.curOffset) }) := by
  unfold siswa_arEntryPoll
  rw [if_neg (by omega)]

theorem serializeEntries_cons (e : ArEntry) (es : List ArEntry) :
    serializeEntries (e :: es) = serializeEntry e ++ serializeEntries es := by
  simp [serializeEntries]

/-- Reading the fields of the first serialized entry of a suffix of the
buffer.  `ar.data` is `pre` followed by serialized entries and arbitrary
trailing bytes, and the cursor sits at `pre.length`. -/
theorem arIterAux_spec (es : List ArEntry) (fuel : Nat) (pre post : List Nat)
    (ar : siArFile)
    (hwf : ∀ e ∈ es, wfEntry e)
    (hdata : ar.data = pre ++ (serializeEntries es ++ post))
    (hlen : ar.len = pre.length + (serializeEntries es).length)
    (hcur : ar.curOffset = pre.length)
    (hfuel : es.length < fuel) :
    arIterAux fuel ar = es.map (fun e => (e.name, e.payload)) := by
  induction es generalizing fuel pre ar with
  | nil =>
    cases fuel with
    | zero => omega
    | succ f =>
      have hp := arEntryPoll_none ar (by
        rw [hlen, hcur]
        simp [serializeEntries])
      simp only [arIterAux, hp]
      simp
  | cons e es ih =>
    cases fuel with
    | zero => omega
    | succ f =>
      have hwfe : wfEntry e := hwf e (by simp)
      have h8 : e.filedate.length = 8 := hwfe.2.2.2.1
      have hsl : (serializeEntry e).length = esize e := serializeEntry_length e h8
      have hdata2 : ar.data = pre ++ (serializeEntry e ++ (serializeEntries es ++ post)) := by
        rw [hdata, serializeEntries_cons]
        simp
      have hlen2 : ar.len =
          pre.length + ((serializeEntry e).length + (serializeEntries es).length) := by
        rw [hlen, serializeEntries_cons]
        simp
      have hpos : ar.curOffset < ar.len := by
        have := serializeEntry_length_pos e
        omega
      have hp := arEntryPoll_some ar hpos
      have hdropcur : ar.data.drop ar.curOffset = serializeEntry e ++ (serializeEntries es ++ post) := by
        rw [hdata2, hcur, List.drop_left]
      have hreads := serializeEntry_reads e (serializeEntries es ++ post) hwfe
      have hdrop8 : ar.data.drop (ar.curOffset + 8) =
          (serializeEntry e ++ (serializeEntries es ++ post)).drop 8 := by
        rw [hdata2, hcur, List.drop_append]
      have hdrop4 : ar.data.drop (ar.curOffset + 4) =
          (serializeEntry e ++ (serializeEntries es ++ post)).drop 4 := by
        rw [hdata2, hcur, List.drop_append]
      have hdrop20 : ar.data.drop (ar.curOffset + 20) =
          (serializeEntry e ++ (serializeEntries es ++ post)).drop 20 := by
        rw [hdata2, hcur, List.drop_append]
      have hdropofs : ar.data.drop (ar.curOffset + (20 + e.name.length + 1)) =
          (serializeEntry e ++ (serializeEntries es ++ post)).drop (20 + e.name.length + 1) := by
        rw [hdata2, hcur, List.drop_append]
      have hname : siswa_arEntryGetName ar.data ar.curOffset = e.name := by
        unfold siswa_arEntryGetName
        rw [hdrop20]
        exact hreads.2.2.2.1
      have hpay : siswa_arEntryGetData ar.data ar.curOffset = e.payload := by
        unfold siswa_arEntryGetData
        rw [hdrop8, hreads.2.2.1, hdrop4, hreads.2.1, hdropofs]
        exact hreads.2.2.2.2
      simp only [arIterAux, hp, hname, hpay, List.map_cons]
      congr 1
      refine ih f (pre ++ serializeEntry e) _ (fun x hx => hwf x (by simp [hx])) ?_ ?_ ?_ ?_
      · show ar.data = (pre ++ serializeEntry e) ++ (serializeEntries es ++ post)
        rw [hdata2]
        simp
      · show ar.len = (pre ++ serializeEntry e).length + (serializeEntries es).length
        rw [hlen2]
        simp
        omega
      · show ar.curOffset + readU32 (ar.data.drop ar.curOffset) = (pre ++ serializeEntry e).length
        rw [hdropcur, hreads.1, hcur]
        simp [hsl]
      · simpa using hfuel

/-- Splitting a write at an exact position: the written window replaces the
first `src.length` bytes of `mid`. -/
theorem writeBytes_at (pre mid suf src : List Nat) (hm : src.length ≤ mid.length) :
    writeBytes (pre ++ (mid ++ suf)) pre.length src =
      pre ++ (src ++ (mid.drop src.length ++ suf)) := by
  unfold writeBytes
  rw [List.take_left, List.drop_append, List.drop_append_of_le_length hm]
  simp

/-- Field access at the start of a serialized entry record placed at offset
`P.length` of a buffer. -/
theorem entry_access_at (e : ArEntry) (P R data : List Nat) (hwf : wfEntry e)
    (hdata : data = P ++ (serializeEntry e ++ R)) :
    siswa_arEntryGetName data P.length = e.name ∧
    siswa_arEntryGetData data P.length = e.payload ∧
    readU32 (data.drop P.length) = esize e := by
  have hreads := serializeEntry_reads e R hwf
  have hdrop : ∀ k : Nat, data.drop (P.length + k) = (serializeEntry e ++ R).drop k := by
    intro k
    rw [hdata, List.drop_append]
  refine ⟨?_, ?_, ?_⟩
  · unfold siswa_arEntryGetName
    rw [hdrop 20]
    exact hreads.2.2.2.1
  · unfold siswa_arEntryGetData
    rw [hdrop 8, hreads.2.2.1, hdrop 4, hreads.2.1, hdrop (20 + e.name.length + 1)]
    exact hreads.2.2.2.2
  · rw [hdata, List.drop_left]
    exact hreads.1

/-- The byte level find scan agrees with the abstract scan on a serialized
suffix. -/
theorem arEntryFindAux_spec (es : List ArEntry) (fuel : Nat) (pre post : List Nat)
    (ar : siArFile) (name : List Nat)
    (hwf : ∀ e ∈ es, wfEntry e)
    (hdata : ar.data = pre ++ (serializeEntries es ++ post))
    (hlen : ar.len = pre.length + (serializeEntries es).length)
    (hcur : ar.curOffset = pre.length)
    (hfuel : es.length < fuel) :
    arEntryFindAux fuel ar name = findSerialized name pre.length es := by
  induction es generalizing fuel pre ar with
  | nil =>
    cases fuel with
    | zero => omega
    | succ f =>
      have hp := arEntryPoll_none ar (by
        rw [hlen, hcur]
        simp [serializeEntries])
      simp only [arEntryFindAux, hp, findSerialized]
  | cons e es ih =>
    cases fuel with
    | zero => omega
    | succ f =>
      have hwfe : wfEntry e := hwf e (by simp)
      have h8 : e.filedate.length = 8 := hwfe.2.2.2.1
      have hsl : (serializeEntry e).length = esize e := serializeEntry_length e h8
      have hdata2 : ar.data = pre ++ (serializeEntry e ++ (serializeEntries es ++ post)) := by
        rw [hdata, serializeEntries_cons]
        simp
      have hlen2 : ar.len =
          pre.length + ((serializeEntry e).length + (serializeEntries es).length) := by
        rw [hlen, serializeEntries_cons]
        simp
      have hpos : ar.curOffset < ar.len := by
        have := serializeEntry_length_pos e
        omega
      have hp := arEntryPoll_some ar hpos
      have hacc := entry_access_at e pre (serializeEntries es ++ post) ar.data hwfe
        (by rw [hdata2])
      simp only [arEntryFindAux, hp, hcur, hacc.1, findSerialized]
      by_cases hmatch : nameMatches name e.name = true
      · rw [if_pos hmatch, if_pos hmatch]
      · rw [if_neg hmatch, if_neg hmatch]
        have hbase : pre.length + esize e = (pre ++ serializeEntry e).length := by
          simp [hsl]
        rw [hbase]
        refine ih f (pre ++ serializeEntry e) _ (fun x hx => hwf x (by simp [hx])) ?_ ?_ ?_ ?_
        · show ar.data = (pre ++ serializeEntry e) ++ (serializeEntries es ++ post)
          rw [hdata2]
          simp
        · show ar.len = (pre ++ serializeEntry e).length + (serializeEntries es).length
          rw [hlen2]
          simp
          omega
        · show pre.length + readU32 (ar.data.drop pre.length) = (pre ++ serializeEntry e).length
          rw [hacc.2.2]
          simp [hsl]
        · simpa using hfuel

theorem serializeEntries_length_ge (es : List ArEntry) :
    es.length ≤ (serializeEntries es).length := by
  induction es with
  | nil => simp [serializeEntries]
  | cons e es ih =>
    rw [serializeEntries_cons]
    have := serializeEntry_length_pos e
    simp only [List.length_cons, List.length_append]
    omega

theorem arHeaderBytes_length : arHeaderBytes.length = 16 := by
  decide

/-- Iterating a handle whose buffer is a serialized archive yields exactly the
abstract entries (names and payloads) in stored order. -/
theorem arIter_serialized (es : List ArEntry) (post : List Nat) (ar : siArFile)
    (hwf : ∀ e ∈ es, wfEntry e)
    (hdata : ar.data = serializeAr es ++ post)
    (hlen : ar.len = (serializeAr es).length) :
    arIter ar = es.map (fun e => (e.name, e.payload)) := by
  have hsl : (serializeAr es).length = 16 + (serializeEntries es).length := by
    simp [serializeAr, arHeaderBytes_length]
  refine arIterAux_spec es (ar.len + 1) arHeaderBytes post _ hwf ?_ ?_ ?_ ?_
  · show ar.data = arHeaderBytes ++ (serializeEntries es ++ post)
    rw [hdata, serializeAr]
    simp
  · show ar.len = arHeaderBytes.length + (serializeEntries es).length
    rw [hlen, hsl, arHeaderBytes_length]
  · show (16 : Nat) = arHeaderBytes.length
    rw [arHeaderBytes_length]
  · have := serializeEntries_length_ge es
    omega

/-- Finding in a handle whose buffer is a serialized archive is the abstract
scan from offset 16. -/
theorem arEntryFindEx_serialized (es : List ArEntry) (post : List Nat)
    (ar : siArFile) (name : List Nat)
    (hwf : ∀ e ∈ es, wfEntry e)
    (hdata : ar.data = serializeAr es ++ post)
    (hlen : ar.len = (serializeAr es).length) :
    siswa_arEntryFindEx ar name = findSerialized name 16 es := by
  have hsl : (serializeAr es).length = 16 + (serializeEntries es).length := by
    simp [serializeAr, arHeaderBytes_length]
  have h16 : (16 : Nat) = arHeaderBytes.length := by rw [arHeaderBytes_length]
  unfold siswa_arEntryFindEx
  rw [h16]
  refine arEntryFindAux_spec es (ar.len + 1) arHeaderBytes post _ name hwf ?_ ?_ ?_ ?_
  · show ar.data = arHeaderBytes ++ (serializeEntries es ++ post)
    rw [hdata, serializeAr]
    simp
  · show ar.len = arHeaderBytes.length + (serializeEntries es).length
    rw [hlen, hsl, arHeaderBytes_length]
  · rfl
  · have := serializeEntries_length_ge es
    omega

theorem nameMatches_refl (l : List Nat) : nameMatches l l = true := by
  unfold nameMatches
  rw [List.isPrefixOf_iff_prefix]

theorem si_hashtable_exists_iff (ht : siHashTable) (key : List Nat) :
    si_hashtable_exists ht key = true ↔ some key ∈ ht.entries := by
  unfold si_hashtable_exists
  rw [List.any_eq_true]
  constructor
  · rintro ⟨x, hx, hbeq⟩
    rw [beq_iff_eq] at hbeq
    subst hbeq
    exact List.mem_rotate.1 hx
  · intro h
    exact ⟨some key, List.mem_rotate.2 h, by simp⟩

theorem countP_set_some (l : List (Option (List Nat))) (j : Nat) (a : List Nat)
    (hj : j < l.length) (hnone : l.getD j none = none) :
    l.countP Option.isNone = (l.set j (some a)).countP Option.isNone + 1 := by
  induction l generalizing j with
  | nil => simp at hj
  | cons h t ih =>
    cases j with
    | zero =>
      simp only [List.getD_cons_zero] at hnone
      subst hnone
      simp [List.countP_cons]
    | succ j =>
      simp only [List.getD_cons_succ] at hnone
      have := ih j (by simpa using hj) hnone
      simp only [List.set_cons_succ, List.countP_cons]
      omega

theorem si_hashtable_set_success (ht : siHashTable) (key : List Nat)
    (h : 0 < ht.entries.countP Option.isNone) :
    ∃ ht2, si_hashtable_set ht key = some ht2 ∧
      (∀ k, some k ∈ ht2.entries ↔ k = key ∨ some k ∈ ht.entries) ∧
      ht.entries.countP Option.isNone = ht2.entries.countP Option.isNone + 1 := by
  obtain ⟨x, hx, hpx⟩ := List.countP_pos_iff.1 h
  have hxnone : x = none := by
    cases x
    · rfl
    · simp at hpx
  subst hxnone
  obtain ⟨j0, hj0, hget0⟩ := List.mem_iff_getElem.1 hx
  have hcappos : 0 < ht.entries.length := by omega
  have hmemidx : j0 ∈ (List.range ht.entries.length).map
      (fun i => (htStart ht key + i) % ht.entries.length) := by
    rw [List.mem_map]
    refine ⟨(j0 + ht.entries.length - htStart ht key % ht.entries.length) %
      ht.entries.length, ?_, ?_⟩
    · rw [List.mem_range]
      exact Nat.mod_lt _ hcappos
    · have hs : htStart ht key % ht.entries.length < ht.entries.length :=
        Nat.mod_lt _ hcappos
      have hsum : htStart ht key % ht.entries.length +
          (j0 + ht.entries.length - htStart ht key % ht.entries.length) =
          j0 + ht.entries.length := by omega
      calc (htStart ht key + (j0 + ht.entries.length -
              htStart ht key % ht.entries.length) % ht.entries.length) %
            ht.entries.length
          = (htStart ht key + (j0 + ht.entries.length -
              htStart ht key % ht.entries.length)) % ht.entries.length := by
            rw [Nat.add_mod_mod]
        _ = (htStart ht key % ht.entries.length +
              (j0 + ht.entries.length - htStart ht key % ht.entries.length)) %
                ht.entries.length := by
            rw [Nat.mod_add_mod]
        _ = (j0 + ht.entries.length) % ht.entries.length := by rw [hsum]
        _ = j0 := by
            rw [Nat.add_mod_right]
            exact Nat.mod_eq_of_lt hj0
  have hpred : ((ht.entries.getD j0 none).isNone : Bool) = true := by
    rw [List.getD_eq_getElem _ _ hj0, hget0]
    rfl
  have hfound : (((List.range ht.entries.length).map
      (fun i => (htStart ht key + i) % ht.entries.length)).find?
      (fun j => (ht.entries.getD j none).isNone)).isSome := by
    rw [List.find?_isSome]
    exact ⟨j0, hmemidx, hpred⟩
  obtain ⟨j, hj⟩ := Option.isSome_iff_exists.1 hfound
  have hjpred := List.find?_some hj
  have hjmem := List.mem_of_find?_eq_some hj
  have hjlt : j < ht.entries.length := by
    rw [List.mem_map] at hjmem
    obtain ⟨i, _, hi⟩ := hjmem
    rw [← hi]
    exact Nat.mod_lt _ hcappos
  have hjnone : ht.entries[j] = none := by
    have := List.getD_eq_getElem ht.entries none hjlt
    rw [this] at hjpred
    cases hv : ht.entries[j]
    · rfl
    · rw [hv] at hjpred
      simp at hjpred
  refine ⟨⟨ht.entries.set j (some key)⟩, ?_, ?_, ?_⟩
  · unfold si_hashtable_set
    rw [hj]
  · intro k
    constructor
    · intro hk
      rcases List.mem_or_eq_of_mem_set hk with hk2 | hk2
      · exact Or.inr hk2
      · exact Or.inl (by injection hk2)
    · rintro (rfl | hk)
      · rw [List.mem_iff_getElem]
        exact ⟨j, by simpa using hjlt, List.getElem_set_self _⟩
      · obtain ⟨p, hp, hgp⟩ := List.mem_iff_getElem.1 hk
        have hpj : j ≠ p := by
          intro hcon
          subst hcon
          rw [hjnone] at hgp
          exact Option.noConfusion hgp
        rw [List.mem_iff_getElem]
        exact ⟨p, by simpa using hp, by rw [List.getElem_set_ne hpj]; exact hgp⟩
  · exact countP_set_some _ j key hjlt (by rw [List.getD_eq_getElem _ _ hjlt, hjnone])

theorem emitAr_true_snd (S : List (List Nat)) (es : List ArEntry) :
    (emitAr true S es).2 = S := by
  induction es with
  | nil => rfl
  | cons e es ih =>
    by_cases hm : e.name ∈ S
    · simpa [emitAr, hm] using ih
    · simpa [emitAr, hm] using ih

theorem emitAr_true_filter (S : List (List Nat)) (es : List ArEntry) :
    (emitAr true S es).1 = es.filter (fun e => !(decide (e.name ∈ S))) := by
  induction es with
  | nil => rfl
  | cons e es ih =>
    by_cases hm : e.name ∈ S
    · simpa [emitAr, hm, List.filter_cons] using ih
    · simpa [emitAr, hm, List.filter_cons] using ih

theorem emitAr_snd_mem (isLast : Bool) (S : List (List Nat)) (es : List ArEntry)
    (k : List Nat) (hk : k ∈ (emitAr isLast S es).2) : k ∈ S ∨ k ∈ es.map ArEntry.name := by
  induction es generalizing S with
  | nil => exact Or.inl hk
  | cons e es ih =>
    by_cases hm : e.name ∈ S
    · rw [emitAr, if_pos hm] at hk
      rcases ih S hk with h1 | h1
      · exact Or.inl h1
      · exact Or.inr (by simp [h1])
    · rw [emitAr, if_neg hm] at hk
      rcases ih _ hk with h1 | h1
      · cases isLast with
        | true => exact Or.inl h1
        | false =>
          simp only [Bool.false_eq_true, if_neg] at h1
          rcases List.mem_cons.1 h1 with h2 | h2
          · exact Or.inr (by simp [h2])
          · exact Or.inl h2
      · exact Or.inr (by simp [h1])

theorem emitAr_fresh (S : List (List Nat)) (es : List ArEntry)
    (hfresh : ∀ e ∈ es, e.name ∉ S) (hnodup : (es.map ArEntry.name).Nodup) :
    (emitAr false S es).1 = es := by
  induction es generalizing S with
  | nil => rfl
  | cons e es ih =>
    have hm : e.name ∉ S := hfresh e (by simp)
    rw [emitAr, if_neg hm]
    simp only [List.cons.injEq, true_and]
    simp only [List.map_cons, List.nodup_cons] at hnodup
    refine ih (e.name :: S) ?_ hnodup.2
    intro x hx
    rw [List.mem_cons]
    rintro (hcon | hcon)
    · exact hnodup.1 (hcon ▸ List.mem_map_of_mem ArEntry.name hx)
    · exact hfresh x (by simp [hx]) hcon

theorem emitAr_true_false (S T : List (List Nat)) (es : List ArEntry)
    (hnodup : (es.map ArEntry.name).Nodup)
    (hST : ∀ n ∈ es.map ArEntry.name, (n ∈ S ↔ n ∈ T)) :
    (emitAr true S es).1 = (emitAr false T es).1 := by
  induction es generalizing S T with
  | nil => rfl
  | cons e es ih =>
    simp only [List.map_cons, List.nodup_cons] at hnodup
    have hiff : e.name ∈ S ↔ e.name ∈ T := hST e.name (by simp)
    by_cases hm : e.name ∈ S
    · rw [emitAr, if_pos hm, emitAr, if_pos (hiff.1 hm)]
      exact ih S T hnodup.2 (fun n hn => hST n (by simp [hn]))
    · rw [emitAr, if_neg hm, emitAr, if_neg (fun hc => hm (hiff.2 hc))]
      simp only [List.cons.injEq, true_and, if_pos rfl]
      refine ih S (e.name :: T) hnodup.2 ?_
      intro n hn
      have hne : n ≠ e.name := by
        intro hcon
        exact hnodup.1 (hcon ▸ hn)
      rw [List.mem_cons]
      constructor
      · intro h1
        exact Or.inr ((hST n (by simp [hn])).1 h1)
      · rintro (h1 | h1)
        · exact absurd h1 hne
        · exact (hST n (by simp [hn])).2 h1

theorem serializeEntries_append (xs ys : List ArEntry) :
    serializeEntries (xs ++ ys) = serializeEntries xs ++ serializeEntries ys := by
  simp [serializeEntries]

theorem serializeEntries_length_sum (es : List ArEntry)
    (h8 : ∀ e ∈ es, e.filedate.length = 8) :
    (serializeEntries es).length = (es.map esize).sum := by
  induction es with
  | nil => simp [serializeEntries]
  | cons e es ih =>
    rw [serializeEntries_cons]
    simp only [List.length_append, List.map_cons, List.sum_cons]
    rw [serializeEntry_length e (h8 e (by simp)), ih (fun x hx => h8 x (by simp [hx]))]

/-- The per archive merge loop on a serialized archive agrees with the
abstract emission `emitAr`: it succeeds (given table room, fuel and output
capacity), appends exactly the serialized emitted entries, adds their sizes
to `totalSize`, and afterwards the scratch set holds the abstract name set. -/
theorem mergeArLoop_spec (es : List ArEntry) (cap : Nat) (isLast : Bool)
    (pre post : List Nat) (fuel : Nat) (st : MergeSt) (S : List (List Nat))
    (hwf : ∀ e ∈ es, wfEntry e)
    (hkeys : ∀ k, some k ∈ st.ht.entries ↔ k ∈ S)
    (hfree : es.length ≤ st.ht.entries.countP Option.isNone)
    (hcap : st.totalSize + ((emitAr isLast S es).1.map esize).sum ≤ cap)
    (hfuel : es.length < fuel) :
    ∃ st2, mergeArLoop cap isLast (pre ++ (serializeEntries es ++ post))
        (pre.length + (serializeEntries es).length) fuel pre.length st = some st2 ∧
      st2.acc = st.acc ++ serializeEntries (emitAr isLast S es).1 ∧
      st2.totalSize = st.totalSize + ((emitAr isLast S es).1.map esize).sum ∧
      (∀ k, some k ∈ st2.ht.entries ↔ k ∈ (emitAr isLast S es).2) ∧
      st.ht.entries.countP Option.isNone ≤ st2.ht.entries.countP Option.isNone + es.length := by
  induction es generalizing pre fuel st S with
  | nil =>
    cases fuel with
    | zero => omega
    | succ f =>
      refine ⟨st, ?_, by simp [emitAr, serializeEntries], by simp [emitAr], ?_, by omega⟩
      · rw [mergeArLoop]
        simp [serializeEntries]
      · intro k
        simpa [emitAr] using hkeys k
  | cons e es ih =>
    cases fuel with
    | zero => omega
    | succ f =>
      have hwfe : wfEntry e := hwf e (by simp)
      have h8 : e.filedate.length = 8 := hwfe.2.2.2.1
      have hsl : (serializeEntry e).length = esize e := serializeEntry_length e h8
      simp only [List.length_cons] at hfree hfuel
      rw [show serializeEntries (e :: es) = serializeEntry e ++ serializeEntries es from
        serializeEntries_cons e es]
      rw [show pre ++ ((serializeEntry e ++ serializeEntries es) ++ post) =
        pre ++ (serializeEntry e ++ (serializeEntries es ++ post)) by simp]
      rw [show (serializeEntry e ++ serializeEntries es).length =
        (serializeEntry e).length + (serializeEntries es).length by simp]
      have hacc := entry_access_at e pre (serializeEntries es ++ post)
        (pre ++ (serializeEntry e ++ (serializeEntries es ++ post))) hwfe rfl
      have hname : cstr ((pre ++ (serializeEntry e ++ (serializeEntries es ++ post))).drop
          (pre.length + 20)) = e.name := hacc.1
      have hsize : readU32 ((pre ++ (serializeEntry e ++ (serializeEntries es ++ post))).drop
          pre.length) = esize e := hacc.2.2
      have htake : ((pre ++ (serializeEntry e ++ (serializeEntries es ++ post))).drop
          pre.length).take (esize e) = serializeEntry e := by
        rw [List.drop_left]
        exact List.take_left' hsl
      have hlt : ¬ (pre.length + ((serializeEntry e).length + (serializeEntries es).length)
          ≤ pre.length) := by
        have := serializeEntry_length_pos e
        omega
      rw [mergeArLoop]
      rw [if_neg hlt]
      dsimp only
      rw [hsize, hname, htake]
      by_cases hm : e.name ∈ S
      · have hex : si_hashtable_exists st.ht e.name = true :=
          (si_hashtable_exists_iff st.ht e.name).2 ((hkeys e.name).2 hm)
        rw [if_pos hex]
        have hemit : emitAr isLast S (e :: es) = emitAr isLast S es := by
          rw [emitAr, if_pos hm]
        rw [show pre.length + esize e = (pre ++ serializeEntry e).length by simp [hsl]]
        rw [show pre.length + ((serializeEntry e).length + (serializeEntries es).length) =
          (pre ++ serializeEntry e).length + (serializeEntries es).length by simp; omega]
        rw [show pre ++ (serializeEntry e ++ (serializeEntries es ++ post)) =
          (pre ++ serializeEntry e) ++ (serializeEntries es ++ post) by simp]
        obtain ⟨st2, hrun, hacc2, htot2, hkeys2, hcnt2⟩ :=
          ih (pre ++ serializeEntry e) f st S (fun x hx => hwf x (by simp [hx])) hkeys
            (by omega) (by rw [← hemit]; exact hcap) (by omega)
        refine ⟨st2, hrun, ?_, ?_, ?_, by simp only [List.length_cons]; omega⟩
        · rw [hacc2, hemit]
        · rw [htot2, hemit]
        · rw [hemit]
          exact hkeys2
      · have hex : si_hashtable_exists st.ht e.name = false := by
          rw [← Bool.not_eq_true]
          intro hc
          exact hm ((hkeys e.name).1 ((si_hashtable_exists_iff st.ht e.name).1 hc))
        rw [hex]
        rw [if_neg (by simp)]
        have hemit : (emitAr isLast S (e :: es)).1 =
            e :: (emitAr isLast (if isLast then S else e.name :: S) es).1 := by
          rw [emitAr, if_neg hm]
        have hemit2 : (emitAr isLast S (e :: es)).2 =
            (emitAr isLast (if isLast then S else e.name :: S) es).2 := by
          rw [emitAr, if_neg hm]
        have hsum : ((emitAr isLast S (e :: es)).1.map esize).sum =
            esize e + (((emitAr isLast (if isLast then S else e.name :: S) es).1.map
              esize).sum) := by
          rw [hemit]
          simp
        have hts : ¬ (cap < st.totalSize + esize e) := by
          rw [hsum] at hcap
          omega
        cases isLast with
        | true =>
          simp only [eq_self_iff_true, if_true] at hemit hemit2 hsum ⊢
          rw [if_neg hts]
          rw [show pre.length + esize e = (pre ++ serializeEntry e).length by simp [hsl]]
          rw [show pre.length + ((serializeEntry e).length + (serializeEntries es).length) =
            (pre ++ serializeEntry e).length + (serializeEntries es).length by simp; omega]
          rw [show pre ++ (serializeEntry e ++ (serializeEntries es ++ post)) =
            (pre ++ serializeEntry e) ++ (serializeEntries es ++ post) by simp]
          obtain ⟨st2, hrun, hacc2, htot2, hkeys2, hcnt2⟩ :=
            ih (pre ++ serializeEntry e) f ⟨st.ht, st.totalSize + esize e,
              st.acc ++ serializeEntry e⟩ S (fun x hx => hwf x (by simp [hx]))
              (fun k => hkeys k) (by dsimp only; omega)
              (by dsimp only; rw [hsum] at hcap; omega) (by omega)
          refine ⟨st2, hrun, ?_, ?_, ?_, ?_⟩
          · rw [hacc2, hemit, serializeEntries_cons]
            dsimp only
            simp
          · rw [htot2, hsum]
            dsimp only
            omega
          · rw [hemit2]
            exact hkeys2
          · dsimp only at hcnt2
            simp only [List.length_cons]
            omega
        | false =>
          simp only [Bool.false_eq_true, if_false] at hemit hemit2 hsum ⊢
          obtain ⟨ht2, hset, hmem2, hcnt⟩ := si_hashtable_set_success st.ht e.name (by omega)
          rw [hset]
          dsimp only
          rw [if_neg hts]
          rw [show pre.length + esize e = (pre ++ serializeEntry e).length by simp [hsl]]
          rw [show pre.length + ((serializeEntry e).length + (serializeEntries es).length) =
            (pre ++ serializeEntry e).length + (serializeEntries es).length by simp; omega]
          rw [show pre ++ (serializeEntry e ++ (serializeEntries es ++ post)) =
            (pre ++ serializeEntry e) ++ (serializeEntries es ++ post) by simp]
          obtain ⟨st2, hrun, hacc2, htot2, hkeys2, hcnt2⟩ :=
            ih (pre ++ serializeEntry e) f ⟨ht2, st.totalSize + esize e,
              st.acc ++ serializeEntry e⟩ (e.name :: S)
              (fun x hx => hwf x (by simp [hx]))
              (fun k => by
                dsimp only
                rw [hmem2 k, hkeys k]
                exact (List.mem_cons).symm)
              (by dsimp only; omega)
              (by dsimp only; rw [hsum] at hcap; omega) (by omega)
          refine ⟨st2, hrun, ?_, ?_, ?_, ?_⟩
          · rw [hacc2, hemit, serializeEntries_cons]
            dsimp only
            simp
          · rw [htot2, hsum]
            dsimp only
            omega
          · rw [hemit2]
            exact hkeys2
          · dsimp only at hcnt2
            simp only [List.length_cons]
            omega

theorem emitAr_false_snd_iff (S : List (List Nat)) (es : List ArEntry) (k : List Nat) :
    k ∈ (emitAr false S es).2 ↔ k ∈ S ∨ k ∈ es.map ArEntry.name := by
  induction es generalizing S with
  | nil => simp [emitAr]
  | cons e es ih =>
    by_cases hm : e.name ∈ S
    · rw [emitAr, if_pos hm, ih]
      simp only [List.map_cons, List.mem_cons]
      constructor
      · rintro (h | h)
        · exact Or.inl h
        · exact Or.inr (Or.inr h)
      · rintro (h | h | h)
        · exact Or.inl h
        · exact Or.inl (h ▸ hm)
        · exact Or.inr h
    · rw [emitAr, if_neg hm]
      show k ∈ (emitAr false (if (false : Bool) then S else e.name :: S) es).2 ↔ _
      rw [show (if (false : Bool) then S else e.name :: S) = e.name :: S by simp]
      rw [ih]
      simp only [List.map_cons, List.mem_cons]
      tauto

theorem countP_none_replicate :
    (List.replicate mergeTableCapacity (none : Option (List Nat))).countP
      Option.isNone = mergeTableCapacity := by
  have h1 : ∀ a ∈ List.replicate mergeTableCapacity (none : Option (List Nat)),
      Option.isNone a = true := by
    intro a ha
    rw [List.eq_of_mem_replicate ha]
    rfl
  rw [List.countP_eq_length.mpr h1, List.length_replicate]

theorem serializeAr_length_sum (es : List ArEntry)
    (h8 : ∀ e ∈ es, e.filedate.length = 8) :
    (serializeAr es).length = 16 + (es.map esize).sum := by
  simp [serializeAr, arHeaderBytes_length, serializeEntries_length_sum es h8]

theorem readU32_serializeAr (es : List ArEntry) : readU32 (serializeAr es) = 0 := by
  rw [serializeAr, arHeaderBytes]
  rw [show u32le 0 ++ u32le 16 ++ u32le 20 ++ u32le 64 ++ serializeEntries es =
    u32le 0 ++ (u32le 16 ++ u32le 20 ++ u32le 64 ++ serializeEntries es) by simp]
  exact readU32_u32le_append 0 _ (by omega)

theorem mergedEntries_single (S : List (List Nat)) (es : List ArEntry) :
    mergedEntries S [es] = (emitAr true S es).1 := rfl

theorem mergedEntries_cons2 (S : List (List Nat)) (es es2 : List ArEntry)
    (rest : List (List ArEntry)) :
    mergedEntries S (es :: es2 :: rest) =
      (emitAr false S es).1 ++ mergedEntries (emitAr false S es).2 (es2 :: rest) := rfl

/-- The per archive loop applied to a handle over a serialized archive. -/
theorem mergeArLoop_ser (es : List ArEntry) (cap : Nat) (isLast : Bool)
    (st : MergeSt) (S : List (List Nat))
    (hwf : ∀ e ∈ es, wfEntry e)
    (hkeys : ∀ k, some k ∈ st.ht.entries ↔ k ∈ S)
    (hfree : es.length ≤ st.ht.entries.countP Option.isNone)
    (hcap : st.totalSize + ((emitAr isLast S es).1.map esize).sum ≤ cap) :
    ∃ st2, mergeArLoop cap isLast (serializeAr es) (serializeAr es).length
        ((serializeAr es).length + 1) 16 st = some st2 ∧
      st2.acc = st.acc ++ serializeEntries (emitAr isLast S es).1 ∧
      st2.totalSize = st.totalSize + ((emitAr isLast S es).1.map esize).sum ∧
      (∀ k, some k ∈ st2.ht.entries ↔ k ∈ (emitAr isLast S es).2) ∧
      st.ht.entries.countP Option.isNone ≤ st2.ht.entries.countP Option.isNone + es.length := by
  have hfuel : es.length < (serializeAr es).length + 1 := by
    have h1 := serializeEntries_length_ge es
    have h2 : (serializeAr es).length = 16 + (serializeEntries es).length := by
      simp [serializeAr, arHeaderBytes_length]
    omega
  have h := mergeArLoop_spec es cap isLast arHeaderBytes [] ((serializeAr es).length + 1)
    st S hwf hkeys hfree hcap hfuel
  rw [show arHeaderBytes ++ (serializeEntries es ++ []) = serializeAr es by
    simp [serializeAr]] at h
  rw [show arHeaderBytes.length + (serializeEntries es).length = (serializeAr es).length by
    simp [serializeAr, arHeaderBytes_length]] at h
  rw [arHeaderBytes_length] at h
  exact h

/-- The outer loop of the merge over serialized archives follows the
abstract `mergedEntries`. -/
theorem mergeGo_spec (ess : List (List ArEntry)) (cap : Nat) (st : MergeSt)
    (S : List (List Nat))
    (hwf : ∀ es ∈ ess, ∀ e ∈ es, wfEntry e)
    (hkeys : ∀ k, some k ∈ st.ht.entries ↔ k ∈ S)
    (hfree : (ess.map List.length).sum ≤ st.ht.entries.countP Option.isNone)
    (hcap : st.totalSize + ((mergedEntries S ess).map esize).sum ≤ cap) :
    ∃ st2, mergeGo cap (ess.map serHandle) st = some st2 ∧
      st2.acc = st.acc ++ serializeEntries (mergedEntries S ess) ∧
      st2.totalSize = st.totalSize + ((mergedEntries S ess).map esize).sum := by
  induction ess generalizing st S with
  | nil =>
    exact ⟨st, rfl, by simp [mergedEntries, serializeEntries], by simp [mergedEntries]⟩
  | cons es rest ih =>
    cases rest with
    | nil =>
      simp only [List.map_cons, List.map_nil, mergeGo, serHandle]
      simp only [List.map_cons, List.map_nil, List.sum_cons, List.sum_nil] at hfree
      rw [mergedEntries_single] at hcap
      obtain ⟨st2, hrun, ha, ht', hk⟩ := mergeArLoop_ser es cap true st S
        (hwf es (by simp)) hkeys (by omega) hcap
      exact ⟨st2, hrun, by rw [ha, mergedEntries_single], by rw [ht', mergedEntries_single]⟩
    | cons es2 rest2 =>
      simp only [List.map_cons, mergeGo, serHandle]
      simp only [List.map_cons, List.sum_cons] at hfree
      rw [mergedEntries_cons2] at hcap
      obtain ⟨st1, hrun1, ha1, ht1, hk1, hc1⟩ := mergeArLoop_ser es cap false st S
        (hwf es (by simp)) hkeys (by omega)
        (by rw [List.map_append, List.sum_append] at hcap; omega)
      rw [hrun1]
      obtain ⟨st2, hrun2, ha2, ht2⟩ := ih st1 (emitAr false S es).2
        (fun x hx => hwf x (by simp [hx])) hk1
        (by simp only [List.map_cons, List.sum_cons]; omega)
        (by
          rw [ht1]
          rw [List.map_append, List.sum_append] at hcap
          omega)
      simp only [List.map_cons] at hrun2
      refine ⟨st2, hrun2, ?_, ?_⟩
      · rw [ha2, ha1, mergedEntries_cons2, serializeEntries_append]
        simp
      · rw [ht2, ht1, mergedEntries_cons2, List.map_append, List.sum_append]
        omega

theorem mergedEntriesSpec_cons (S : List (List Nat)) (es : List ArEntry)
    (rest : List (List ArEntry)) :
    mergedEntriesSpec S (es :: rest) =
      (emitAr false S es).1 ++ mergedEntriesSpec (emitAr false S es).2 rest := rfl

/-- The insert always variant of the outer loop follows `mergedEntriesSpec`. -/
theorem mergeGoSpec_spec (ess : List (List ArEntry)) (cap : Nat) (st : MergeSt)
    (S : List (List Nat))
    (hwf : ∀ es ∈ ess, ∀ e ∈ es, wfEntry e)
    (hkeys : ∀ k, some k ∈ st.ht.entries ↔ k ∈ S)
    (hfree : (ess.map List.length).sum ≤ st.ht.entries.countP Option.isNone)
    (hcap : st.totalSize + ((mergedEntriesSpec S ess).map esize).sum ≤ cap) :
    ∃ st2, mergeGoSpec cap (ess.map serHandle) st = some st2 ∧
      st2.acc = st.acc ++ serializeEntries (mergedEntriesSpec S ess) ∧
      st2.totalSize = st.totalSize + ((mergedEntriesSpec S ess).map esize).sum := by
  induction ess generalizing st S with
  | nil =>
    exact ⟨st, rfl, by simp [mergedEntriesSpec, serializeEntries],
      by simp [mergedEntriesSpec]⟩
  | cons es rest ih =>
    simp only [List.map_cons, mergeGoSpec, serHandle]
    simp only [List.map_cons, List.sum_cons] at hfree
    rw [mergedEntriesSpec_cons] at hcap
    obtain ⟨st1, hrun1, ha1, ht1, hk1, hc1⟩ := mergeArLoop_ser es cap false st S
      (hwf es (by simp)) hkeys (by omega)
      (by rw [List.map_append, List.sum_append] at hcap; omega)
    rw [hrun1]
    obtain ⟨st2, hrun2, ha2, ht2⟩ := ih st1 (emitAr false S es).2
      (fun x hx => hwf x (by simp [hx])) hk1
      (by omega)
      (by
        rw [ht1]
        rw [List.map_append, List.sum_append] at hcap
        omega)
    refine ⟨st2, hrun2, ?_, ?_⟩
    · rw [ha2, ha1, mergedEntriesSpec_cons, serializeEntries_append]
      simp
    · rw [ht2, ht1, mergedEntriesSpec_cons, List.map_append, List.sum_append]
      omega

/-- When the last archive has no internal duplicate names, skipping its
inserts does not change the emitted entries. -/
theorem mergedEntries_eq_spec (ess : List (List ArEntry)) (S : List (List Nat))
    (hnod : ∀ last, ess.getLast? = some last → (last.map ArEntry.name).Nodup) :
    mergedEntries S ess = mergedEntriesSpec S ess := by
  induction ess generalizing S with
  | nil => rfl
  | cons es rest ih =>
    cases rest with
    | nil =>
      have hn : (es.map ArEntry.name).Nodup := hnod es rfl
      rw [mergedEntries_single, mergedEntriesSpec_cons]
      rw [show mergedEntriesSpec (emitAr false S es).2 [] = [] from rfl, List.append_nil]
      exact emitAr_true_false S S es hn (fun n _ => Iff.rfl)
    | cons es2 rest2 =>
      rw [mergedEntries_cons2, mergedEntriesSpec_cons]
      rw [ih _ (fun last h => hnod last (by rw [List.getLast?_cons_cons]; exact h))]

/-- Building a handle over a merged output buffer always classifies it as a
Regular archive (the written header starts with a zero word). -/
theorem arMakeBufferEx_serializeAr (es : List ArEntry) (len cap : Nat) (h : len ≤ cap) :
    siswa_arMakeBufferEx (serializeAr es) len cap =
      some { data := serializeAr es, len := len, cap := cap,
             compression := .NONE, curOffset := 16 } := by
  unfold siswa_arMakeBufferEx
  rw [if_pos h, readU32_serializeAr]
  rw [if_neg (by decide), if_neg (by decide), if_neg (by decide)]

/-- The two archive merge output at the abstract level: all entries of the
first archive, then the entries of the second whose names are fresh. -/
theorem mergedEntries_two (eA eB : List ArEntry)
    (hnodA : (eA.map ArEntry.name).Nodup) :
    mergedEntries [] [eA, eB] =
      eA ++ eB.filter (fun e => !(decide (e.name ∈ eA.map ArEntry.name))) := by
  rw [mergedEntries_cons2, mergedEntries_single]
  have h1 : (emitAr false ([] : List (List Nat)) eA).1 = eA :=
    emitAr_fresh [] eA (fun e he => by simp) hnodA
  rw [h1, emitAr_true_filter]
  have h2 : ∀ e ∈ eB, (decide (e.name ∈ (emitAr false ([] : List (List Nat)) eA).2)) =
      decide (e.name ∈ eA.map ArEntry.name) := by
    intro e he
    rw [decide_eq_decide, emitAr_false_snd_iff]
    simp
  congr 1
  refine List.filter_congr ?_
  intro e he
  exact congrArg Bool.not (h2 e he)

/-- In a duplicate free list every member has count one. -/
theorem count_one_of_nodup_mem {α : Type} [BEq α] [LawfulBEq α] {l : List α} {a : α}
    (d : l.Nodup) (h : a ∈ l) : l.count a = 1 := by
  induction l with
  | nil => cases h
  | cons x xs ih =>
    rw [List.count_cons]
    rw [List.nodup_cons] at d
    rcases List.mem_cons.mp h with h1 | h1
    · subst h1
      rw [List.count_eq_zero.mpr d.1]
      simp
    · rw [ih d.2 h1]
      rw [show (x == a) = false from beq_eq_false_iff_ne.mpr (fun hc => d.1 (hc ▸ h1))]
      simp

/-- C3: merging two archives with overlapping names dedupes.  With distinct
names inside each archive (as the library itself maintains), a table budget
and sufficient capacity, the merge succeeds and the output buffer is the
serialization of all entries of the first archive in stored order followed
by the fresh named entries of the second in stored order; iterating the
result yields exactly those name and payload pairs, every overlapping name
occurs exactly once in the output, and its record is the one from the first
archive. -/
theorem ar_merge_dedupes (eA eB : List ArEntry) (capacity : Nat)
    (hwfA : ∀ e ∈ eA, wfEntry e) (hwfB : ∀ e ∈ eB, wfEntry e)
    (hnodA : (eA.map ArEntry.name).Nodup) (hnodB : (eB.map ArEntry.name).Nodup)
    (hover : ∃ n, n ∈ eA.map ArEntry.name ∧ n ∈ eB.map ArEntry.name)
    (htbl : eA.length + eB.length ≤ mergeTableCapacity)
    (hcap : (serializeAr (eA ++ eB.filter
        (fun e => !(decide (e.name ∈ eA.map ArEntry.name))))).length ≤ capacity) :
    ∃ m, siswa_arMergeMul [serHandle eA, serHandle eB] capacity = some m ∧
      m.data = serializeAr (eA ++ eB.filter
        (fun e => !(decide (e.name ∈ eA.map ArEntry.name)))) ∧
      m.compression = siCompressType.NONE ∧
      arIter m = (eA ++ eB.filter
        (fun e => !(decide (e.name ∈ eA.map ArEntry.name)))).map
          (fun e => (e.name, e.payload)) ∧
      (∀ n, n ∈ eA.map ArEntry.name → n ∈ eB.map ArEntry.name →
        ((eA ++ eB.filter (fun e => !(decide (e.name ∈ eA.map ArEntry.name)))).map
            ArEntry.name).count n = 1 ∧
        (eA ++ eB.filter (fun e => !(decide (e.name ∈ eA.map ArEntry.name)))).filter
            (fun e => e.name == n) =
          eA.filter (fun e => e.name == n)) := by
  have hme : mergedEntries [] [eA, eB] =
      eA ++ eB.filter (fun e => !(decide (e.name ∈ eA.map ArEntry.name))) :=
    mergedEntries_two eA eB hnodA
  have hwfM : ∀ e ∈ eA ++ eB.filter
      (fun e => !(decide (e.name ∈ eA.map ArEntry.name))), wfEntry e := by
    intro e he
    rcases List.mem_append.mp he with h | h
    · exact hwfA e h
    · exact hwfB e (List.mem_of_mem_filter h)
  have hlenM : (serializeAr (eA ++ eB.filter
      (fun e => !(decide (e.name ∈ eA.map ArEntry.name))))).length =
      16 + (((eA ++ eB.filter
        (fun e => !(decide (e.name ∈ eA.map ArEntry.name)))).map esize).sum) :=
    serializeAr_length_sum _ (fun e he => (hwfM e he).2.2.2.1)
  have hkeys0 : ∀ k, some k ∈
      ((⟨⟨List.replicate mergeTableCapacity none⟩, 16, arHeaderBytes⟩ : MergeSt)).ht.entries ↔
      k ∈ ([] : List (List Nat)) := by
    intro k
    simp [List.mem_replicate]
  have hfree0 : (([eA, eB].map List.length).sum) ≤
      ((⟨⟨List.replicate mergeTableCapacity none⟩, 16, arHeaderBytes⟩ : MergeSt)).ht.entries.countP
        Option.isNone := by
    dsimp only
    rw [countP_none_replicate]
    simp only [List.map_cons, List.map_nil, List.sum_cons, List.sum_nil]
    omega
  have hwfAB : ∀ es ∈ [eA, eB], ∀ e ∈ es, wfEntry e := by
    intro es hes
    rcases List.mem_cons.mp hes with h | h
    · exact h ▸ hwfA
    · rw [List.mem_singleton] at h
      exact h ▸ hwfB
  obtain ⟨st2, hrun, ha, ht2⟩ := mergeGo_spec [eA, eB] capacity
    ⟨⟨List.replicate mergeTableCapacity none⟩, 16, arHeaderBytes⟩ [] hwfAB hkeys0 hfree0
    (by rw [hme]; dsimp only; omega)
  have hacc : st2.acc = serializeAr (eA ++ eB.filter
      (fun e => !(decide (e.name ∈ eA.map ArEntry.name)))) := by
    rw [ha, hme]
    rfl
  have htot : st2.totalSize = (serializeAr (eA ++ eB.filter
      (fun e => !(decide (e.name ∈ eA.map ArEntry.name))))).length := by
    rw [ht2, hme, hlenM]
  have hmerge : siswa_arMergeMul [serHandle eA, serHandle eB] capacity =
      some { data := serializeAr (eA ++ eB.filter
               (fun e => !(decide (e.name ∈ eA.map ArEntry.name)))),
             len := (serializeAr (eA ++ eB.filter
               (fun e => !(decide (e.name ∈ eA.map ArEntry.name))))).length,
             cap := capacity, compression := siCompressType.NONE, curOffset := 16 } := by
    unfold siswa_arMergeMul
    simp only [List.map_cons, List.map_nil] at hrun
    rw [hrun]
    dsimp only
    rw [hacc, htot]
    exact arMakeBufferEx_serializeAr _ _ _ hcap
  refine ⟨_, hmerge, rfl, rfl, ?_, ?_⟩
  · exact arIter_serialized _ [] _ hwfM (by simp) rfl
  · intro n hnA hnB
    constructor
    · rw [List.map_append, List.count_append]
      have hcB : ((eB.filter
          (fun e => !(decide (e.name ∈ eA.map ArEntry.name)))).map ArEntry.name).count n
          = 0 := by
        rw [List.count_eq_zero]
        intro hcon
        obtain ⟨e, he, hne⟩ := List.mem_map.mp hcon
        have hf := (List.mem_filter.mp he).2
        rw [hne] at hf
        rw [Bool.not_eq_true', decide_eq_false_iff_not] at hf
        exact hf hnA
      rw [hcB, count_one_of_nodup_mem hnodA hnA]
    · rw [List.filter_append]
      have hB0 : (eB.filter
          (fun e => !(decide (e.name ∈ eA.map ArEntry.name)))).filter
          (fun e => e.name == n) = [] := by
        rw [List.filter_eq_nil_iff]
        intro e he hcon
        have hf := (List.mem_filter.mp he).2
        rw [Bool.not_eq_true', decide_eq_false_iff_not] at hf
        rw [beq_iff_eq] at hcon
        exact hf (hcon ▸ hnA)
      rw [hB0, List.append_nil]

/-- Witness for the C3 theorem on Scenario D of the spec: archives
`x, y` and `y, z` merge into `x, y, z` with the first payload of `y`. -/
theorem ar_merge_dedupes_witness :
    ∃ m, siswa_arMergeMul [serHandle [c3x, c3y], serHandle [c3y2, c3z]] 4096 = some m ∧
      m.data = serializeAr [c3x, c3y, c3z] := by
  obtain ⟨m, h1, h2, h3⟩ := ar_merge_dedupes [c3x, c3y] [c3y2, c3z] 4096
    (by decide) (by decide) (by decide) (by decide)
    ⟨[121], by decide, by decide⟩ (by decide) (by decide)
  refine ⟨m, h1, ?_⟩
  rw [h2]
  rfl

/-- C8 as amended: the merge that skips inserting the names of the final
archive into the scratch set produces output identical to the insert always
variant, provided the final archive holds no internal duplicate names; both
runs succeed under the table and capacity budgets. -/
theorem ar_merge_skip_insert_equiv (ess : List (List ArEntry)) (capacity : Nat)
    (hwf : ∀ es ∈ ess, ∀ e ∈ es, wfEntry e)
    (hnod : ∀ last, ess.getLast? = some last → (last.map ArEntry.name).Nodup)
    (htbl : (ess.map List.length).sum ≤ mergeTableCapacity)
    (hcap : 16 + ((mergedEntries [] ess).map esize).sum ≤ capacity) :
    siswa_arMergeMul (ess.map serHandle) capacity =
      siswa_arMergeMulSpec (ess.map serHandle) capacity ∧
    ∃ m, siswa_arMergeMul (ess.map serHandle) capacity = some m := by
  have heq : mergedEntries [] ess = mergedEntriesSpec [] ess :=
    mergedEntries_eq_spec ess [] hnod
  have hkeys0 : ∀ k, some k ∈
      ((⟨⟨List.replicate mergeTableCapacity none⟩, 16, arHeaderBytes⟩ : MergeSt)).ht.entries ↔
      k ∈ ([] : List (List Nat)) := by
    intro k
    simp [List.mem_replicate]
  have hfree0 : (ess.map List.length).sum ≤
      ((⟨⟨List.replicate mergeTableCapacity none⟩, 16, arHeaderBytes⟩ : MergeSt)).ht.entries.countP
        Option.isNone := by
    dsimp only
    rw [countP_none_replicate]
    exact htbl
  obtain ⟨st2, hrun, ha, ht2⟩ := mergeGo_spec ess capacity
    ⟨⟨List.replicate mergeTableCapacity none⟩, 16, arHeaderBytes⟩ [] hwf hkeys0 hfree0
    (by dsimp only; exact hcap)
  obtain ⟨st3, hrun3, ha3, ht3⟩ := mergeGoSpec_spec ess capacity
    ⟨⟨List.replicate mergeTableCapacity none⟩, 16, arHeaderBytes⟩ [] hwf hkeys0 hfree0
    (by dsimp only; rw [← heq]; exact hcap)
  have hacc : st2.acc = serializeAr (mergedEntries [] ess) := by
    rw [ha]
    rfl
  have htot : st2.totalSize = 16 + ((mergedEntries [] ess).map esize).sum := by
    rw [ht2]
  constructor
  · unfold siswa_arMergeMul siswa_arMergeMulSpec
    rw [hrun, hrun3]
    dsimp only
    rw [show st2.acc = st3.acc from by rw [ha, ha3, heq],
      show st2.totalSize = st3.totalSize from by rw [ht2, ht3, heq]]
  · unfold siswa_arMergeMul
    rw [hrun]
    dsimp only
    rw [hacc, htot]
    exact ⟨_, arMakeBufferEx_serializeAr _ _ _ hcap⟩

/-- Witness for the C8 theorem at two singleton archives. -/
theorem ar_merge_skip_insert_equiv_witness :
    siswa_arMergeMul ([[c8x], [c8y]].map serHandle) 256 =
      siswa_arMergeMulSpec ([[c8x], [c8y]].map serHandle) 256 :=
  (ar_merge_skip_insert_equiv [[c8x], [c8y]] 256 (by decide)
    (by
      intro last h
      simp only [List.getLast?_cons_cons, List.getLast?_singleton, Option.some_inj] at h
      subst h
      decide)
    (by decide) (by decide)).1

/-- C8 counterexample to the unconditional claim: a duplicate name inside
the single (hence final) archive makes the skipping merge emit both records
while the insert always variant emits one, so the outputs differ. -/
theorem ar_merge_skip_insert_counterexample :
    siswa_arMergeMul [serHandle [c8a1, c8a2]] 4096 ≠
      siswa_arMergeMulSpec [serHandle [c8a1, c8a2]] 4096 := by
  decide

/-- C5: feeding the inflater the fixed Huffman block (BTYPE 01, final bit
set) that encodes the eleven literal bytes of abracadabra returns exactly
those eleven bytes, both with ample capacity and with capacity exactly 11. -/
theorem deflate_fixed_abracadabra :
    siswa_decompressDeflate c5input 13 64 = some c5output ∧
    siswa_decompressDeflate c5input 13 11 = some c5output ∧ c5output.length = 11 := by
  refine ⟨?_, ?_, rfl⟩ <;> decide

/-- C1: the SEGS decompressor does not write the decompressed chunks
contiguously.  On a two chunk verbatim buffer whose chunks decompress to
the bytes AA BB CC DD, the output cursor advances by size + 1 after each
chunk, so the first four output bytes read AA BB 00 CC (the gap byte is
untouched output buffer content); len, cap and the compression kind are
rebound as described. -/
theorem segs_decompress_gap :
    ∃ m, siswa_arlDecompressSegs c1arl (List.replicate 64 0) 64 = some m ∧
      m.len = 4 ∧ m.cap = 64 ∧ m.compression = siCompressType.NONE ∧
      (c1buf.drop 32).take 2 ++ (c1buf.drop 34).take 2 = [170, 187, 204, 221] ∧
      m.data.take 4 = [170, 187, 0, 204] ∧
      m.data.take 4 ≠ [170, 187, 204, 221] := by
  refine ⟨_, rfl, ?_, ?_, ?_, ?_, ?_, ?_⟩ <;> decide

/-- C4 as amended.  For a valid archive `[a, b, c]` (wellformed entries, and
the stored name of `a` must not have the name of `b` as a prefix, since the
find scan is a prefix match), an update of `b` with a new payload succeeds,
rewrites the buffer into the serialization of `[a, b2, c]` where `b2` is `b`
with the new payload, leaves the byte ranges of `a` and `c` byte identical
(with `c` shifted by the size delta), and a subsequent find of `b` reads the
new payload; this holds for smaller and larger payloads alike, given enough
capacity. -/
theorem ar_update_preserves_frame (a b c b2 : ArEntry) (p2 pad : List Nat) (ar : siArFile)
    (hb2 : b2 = { b with payload := p2 })
    (hwa : wfEntry a) (hwb : wfEntry b) (hwc : wfEntry c) (hwb2 : wfEntry b2)
    (hnm : nameMatches b.name a.name = false)
    (hdata : ar.data = serializeAr [a, b, c] ++ pad)
    (hlen : ar.len = (serializeAr [a, b, c]).length)
    (hcap : ar.cap = ar.data.length)
    (hfit : (serializeAr [a, b2, c]).length ≤ ar.cap) :
    ∃ ar2, siswa_arEntryUpdateEx ar b.name p2 = some (true, ar2) ∧
      ar2.len = (serializeAr [a, b2, c]).length ∧
      ar2.data.take ar2.len = serializeAr [a, b2, c] ∧
      ar2.data.take (16 + esize a) = ar.data.take (16 + esize a) ∧
      (ar2.data.drop (16 + esize a + esize b2)).take (serializeEntry c).length =
        (ar.data.drop (16 + esize a + esize b)).take (serializeEntry c).length ∧
      arIter ar2 = [(a.name, a.payload), (b.name, p2), (c.name, c.payload)] ∧
      siswa_arEntryFindEx ar2 b.name = some (16 + esize a) ∧
      siswa_arEntryGetData ar2.data (16 + esize a) = p2 := by
  have h8a : a.filedate.length = 8 := hwa.2.2.2.1
  have h8b : b.filedate.length = 8 := hwb.2.2.2.1
  have h8c : c.filedate.length = 8 := hwc.2.2.2.1
  have hsla : (serializeEntry a).length = esize a := serializeEntry_length a h8a
  have hslb : (serializeEntry b).length = esize b := serializeEntry_length b h8b
  have hslc : (serializeEntry c).length = esize c := serializeEntry_length c h8c
  have h32b2 : esize b2 < 4294967296 := hwb2.2.2.2.2.2
  have hesb2 : esize b2 = 20 + b.name.length + 1 + p2.length := by
    rw [hb2]
    simp [esize]
  have hesb : esize b = 20 + b.name.length + 1 + b.payload.length := rfl
  have hecpos : 21 ≤ esize c := by
    unfold esize
    omega
  have h4 : ∀ x : Nat, (u32le x).length = 4 := fun x => by simp [u32le]
  have hdrop4 : ∀ x y : Nat, (u32le x).drop (u32le y).length = [] := fun x y => by
    simp [u32le]
  have hwfall : ∀ e ∈ [a, b, c], wfEntry e := by
    intro e he
    simp only [List.mem_cons, List.not_mem_nil, or_false] at he
    rcases he with rfl | rfl | rfl
    · exact hwa
    · exact hwb
    · exact hwc
  have hwfall2 : ∀ e ∈ [a, b2, c], wfEntry e := by
    intro e he
    simp only [List.mem_cons, List.not_mem_nil, or_false] at he
    rcases he with rfl | rfl | rfl
    · exact hwa
    · exact hwb2
    · exact hwc
  have hlenval : ar.len = 16 + esize a + esize b + esize c := by
    rw [hlen]
    simp [serializeAr, serializeEntries, arHeaderBytes_length, hsla, hslb, hslc]
    omega
  have hlen2val : (serializeAr [a, b2, c]).length = 16 + esize a + esize b2 + esize c := by
    have hslb2 : (serializeEntry b2).length = esize b2 :=
      serializeEntry_length b2 hwb2.2.2.2.1
    simp [serializeAr, serializeEntries, arHeaderBytes_length, hsla, hslb2, hslc]
    omega
  have hcapval : ar.cap = 16 + esize a + esize b + esize c + pad.length := by
    rw [hcap, hdata, List.length_append, ← hlen, hlenval]
  have hfitval : 16 + esize a + esize b2 + esize c ≤ ar.cap := by
    rw [← hlen2val]
    exact hfit
  have hassert : 16 + esize a + esize b2 < ar.cap := by
    omega
  have hp2len : p2.length < 4294967296 := by
    rw [hesb2] at h32b2
    omega
  have hple : p2.length % 4294967296 = p2.length := Nat.mod_eq_of_lt hp2len
  have hP0 : (arHeaderBytes ++ serializeEntry a).length = 16 + esize a := by
    simp [arHeaderBytes_length, hsla]
  have hfind : siswa_arEntryFindEx ar b.name = some (16 + esize a) := by
    rw [arEntryFindEx_serialized [a, b, c] pad ar b.name hwfall hdata hlen]
    simp [findSerialized, hnm, nameMatches_refl]
  have hsplitb : ar.data = (arHeaderBytes ++ serializeEntry a) ++
      (serializeEntry b ++ (serializeEntry c ++ pad)) := by
    rw [hdata]
    simp [serializeAr, serializeEntries]
  have hoz : readU32 (ar.data.drop (16 + esize a)) = esize b := by
    have h := (entry_access_at b (arHeaderBytes ++ serializeEntry a)
      (serializeEntry c ++ pad) ar.data hwb hsplitb).2.2
    rwa [hP0] at h
  have hnz : (p2.length + b.name.length + 1 + 20) % 4294967296 = esize b2 := by
    rw [Nat.mod_eq_of_lt (by omega)]
    omega
  -- the evolving buffer contents
  have hd1 : writeBytes ar.data (16 + esize a) (u32le (esize b2)) =
      arHeaderBytes ++ (serializeEntry a ++ (u32le (esize b2) ++ (u32le b.payload.length ++
        (u32le (20 + b.name.length + 1) ++ (b.filedate ++ (b.name ++ (0 ::
          (b.payload ++ (serializeEntry c ++ pad))))))))) := by
    rw [show ar.data = (arHeaderBytes ++ serializeEntry a) ++ (u32le (esize b) ++
        (u32le b.payload.length ++ (u32le (20 + b.name.length + 1) ++ (b.filedate ++
          (b.name ++ (0 :: (b.payload ++ (serializeEntry c ++ pad)))))))) by
      rw [hsplitb]
      simp [serializeEntry]]
    rw [← hP0, writeBytes_at _ _ _ _ (by rw [h4, h4]), hdrop4]
    simp
  have hd2 : writeBytes (arHeaderBytes ++ (serializeEntry a ++ (u32le (esize b2) ++
      (u32le b.payload.length ++ (u32le (20 + b.name.length + 1) ++ (b.filedate ++
        (b.name ++ (0 :: (b.payload ++ (serializeEntry c ++ pad)))))))))) (16 + esize a + 4)
      (u32le p2.length) =
      arHeaderBytes ++ (serializeEntry a ++ (u32le (esize b2) ++ (u32le p2.length ++
        (u32le (20 + b.name.length + 1) ++ (b.filedate ++ (b.name ++ (0 ::
          (b.payload ++ (serializeEntry c ++ pad))))))))) := by
    have hP1 : ((arHeaderBytes ++ serializeEntry a) ++ u32le (esize b2)).length =
        16 + esize a + 4 := by
      simp [List.length_append, arHeaderBytes_length, hsla, h4]
      omega
    rw [show arHeaderBytes ++ (serializeEntry a ++ (u32le (esize b2) ++
        (u32le b.payload.length ++ (u32le (20 + b.name.length + 1) ++ (b.filedate ++
          (b.name ++ (0 :: (b.payload ++ (serializeEntry c ++ pad))))))))) =
      ((arHeaderBytes ++ serializeEntry a) ++ u32le (esize b2)) ++
        (u32le b.payload.length ++ (u32le (20 + b.name.length + 1) ++ (b.filedate ++
          (b.name ++ (0 :: (b.payload ++ (serializeEntry c ++ pad))))))) by simp]
    rw [← hP1, writeBytes_at _ _ _ _ (by rw [h4, h4]), hdrop4]
    simp
  have htail : ((arHeaderBytes ++ (serializeEntry a ++ (u32le (esize b2) ++ (u32le p2.length ++
      (u32le (20 + b.name.length + 1) ++ (b.filedate ++ (b.name ++ (0 ::
        (b.payload ++ (serializeEntry c ++ pad)))))))))).drop (16 + esize a + esize b)).take
      (ar.len - (16 + esize a) - esize b) = serializeEntry c := by
    have hPB : ((arHeaderBytes ++ serializeEntry a) ++ (u32le (esize b2) ++ (u32le p2.length ++
        (u32le (20 + b.name.length + 1) ++ (b.filedate ++ (b.name ++ (0 ::
          b.payload))))))).length = 16 + esize a + esize b := by
      simp [List.length_append, arHeaderBytes_length, hsla, h4, h8b, hesb]
      omega
    rw [show arHeaderBytes ++ (serializeEntry a ++ (u32le (esize b2) ++ (u32le p2.length ++
        (u32le (20 + b.name.length + 1) ++ (b.filedate ++ (b.name ++ (0 ::
          (b.payload ++ (serializeEntry c ++ pad))))))))) =
      ((arHeaderBytes ++ serializeEntry a) ++ (u32le (esize b2) ++ (u32le p2.length ++
        (u32le (20 + b.name.length + 1) ++ (b.filedate ++ (b.name ++ (0 ::
          b.payload))))))) ++ (serializeEntry c ++ pad) by simp]
    rw [List.drop_left' hPB]
    rw [show ar.len - (16 + esize a) - esize b = (serializeEntry c).length by
      rw [hlenval, hslc]; omega]
    rw [List.take_left]
  set Y : List Nat := b.payload ++ (serializeEntry c ++ pad) with hY
  have hslb2 : (serializeEntry b2).length = esize b2 :=
    serializeEntry_length b2 hwb2.2.2.2.1
  have hYval : Y.length = b.payload.length + (esize c + pad.length) := by
    rw [hY]
    simp [List.length_append, hslc]
  have hYlen : p2.length ≤ Y.length := by
    rw [hYval]
    omega
  have hY2len : (serializeEntry c).length ≤ (Y.drop p2.length).length := by
    rw [List.length_drop, hYval, hslc]
    omega
  have hmid2 : ((Y.drop p2.length).take (serializeEntry c).length).length =
      (serializeEntry c).length := by
    rw [List.length_take]
    exact Nat.min_eq_left hY2len
  have hB2 : ((arHeaderBytes ++ serializeEntry a) ++ (u32le (esize b2) ++ (u32le p2.length ++
      (u32le (20 + b.name.length + 1) ++ (b.filedate ++ (b.name ++
        (0 :: Y.take p2.length))))))).length = 16 + esize a + esize b2 := by
    simp [List.length_append, arHeaderBytes_length, hsla, h4, h8b, List.length_take]
    omega
  have hd3 : writeBytes (arHeaderBytes ++ (serializeEntry a ++ (u32le (esize b2) ++
      (u32le p2.length ++ (u32le (20 + b.name.length + 1) ++ (b.filedate ++ (b.name ++
        (0 :: Y)))))))) (16 + esize a + esize b2) (serializeEntry c) =
      arHeaderBytes ++ (serializeEntry a ++ (u32le (esize b2) ++ (u32le p2.length ++
        (u32le (20 + b.name.length + 1) ++ (b.filedate ++ (b.name ++ (0 ::
          (Y.take p2.length ++ (serializeEntry c ++
            (Y.drop p2.length).drop (serializeEntry c).length))))))))) := by
    rw [show arHeaderBytes ++ (serializeEntry a ++ (u32le (esize b2) ++
        (u32le p2.length ++ (u32le (20 + b.name.length + 1) ++ (b.filedate ++ (b.name ++
          (0 :: Y))))))) =
      ((arHeaderBytes ++ serializeEntry a) ++ (u32le (esize b2) ++ (u32le p2.length ++
        (u32le (20 + b.name.length + 1) ++ (b.filedate ++ (b.name ++
          (0 :: Y.take p2.length))))))) ++
        ((Y.drop p2.length).take (serializeEntry c).length ++
          (Y.drop p2.length).drop (serializeEntry c).length) by
      simp [List.take_append_drop]]
    rw [← hB2, writeBytes_at _ _ _ _ (le_of_eq hmid2.symm)]
    rw [List.drop_eq_nil_of_le (le_of_eq hmid2)]
    simp
  have hofsval : readU32 ((arHeaderBytes ++ (serializeEntry a ++ (u32le (esize b2) ++
      (u32le p2.length ++ (u32le (20 + b.name.length + 1) ++ (b.filedate ++ (b.name ++ (0 ::
        (Y.take p2.length ++ (serializeEntry c ++
          (Y.drop p2.length).drop (serializeEntry c).length)))))))))).drop
      (16 + esize a + 8)) = 20 + b.name.length + 1 := by
    have hP8 : ((arHeaderBytes ++ serializeEntry a) ++
        (u32le (esize b2) ++ u32le p2.length)).length = 16 + esize a + 8 := by
      simp [List.length_append, arHeaderBytes_length, hsla, h4]
      omega
    rw [show arHeaderBytes ++ (serializeEntry a ++ (u32le (esize b2) ++
        (u32le p2.length ++ (u32le (20 + b.name.length + 1) ++ (b.filedate ++ (b.name ++ (0 ::
          (Y.take p2.length ++ (serializeEntry c ++
            (Y.drop p2.length).drop (serializeEntry c).length))))))))) =
      ((arHeaderBytes ++ serializeEntry a) ++ (u32le (esize b2) ++ u32le p2.length)) ++
        (u32le (20 + b.name.length + 1) ++ (b.filedate ++ (b.name ++ (0 ::
          (Y.take p2.length ++ (serializeEntry c ++
            (Y.drop p2.length).drop (serializeEntry c).length)))))) by simp]
    rw [List.drop_left' hP8]
    exact readU32_u32le_append _ _ (by omega)
  have hd4 : writeBytes (arHeaderBytes ++ (serializeEntry a ++ (u32le (esize b2) ++
      (u32le p2.length ++ (u32le (20 + b.name.length + 1) ++ (b.filedate ++ (b.name ++ (0 ::
        (Y.take p2.length ++ (serializeEntry c ++
          (Y.drop p2.length).drop (serializeEntry c).length))))))))))
      (16 + esize a + (20 + b.name.length + 1)) p2 =
      arHeaderBytes ++ (serializeEntry a ++ (u32le (esize b2) ++ (u32le p2.length ++
        (u32le (20 + b.name.length + 1) ++ (b.filedate ++ (b.name ++ (0 ::
          (p2 ++ (serializeEntry c ++
            (Y.drop p2.length).drop (serializeEntry c).length))))))))) := by
    have hPB4 : ((arHeaderBytes ++ serializeEntry a) ++ (u32le (esize b2) ++ (u32le p2.length ++
        (u32le (20 + b.name.length + 1) ++ (b.filedate ++ (b.name ++ [0])))))).length =
        16 + esize a + (20 + b.name.length + 1) := by
      simp [List.length_append, arHeaderBytes_length, hsla, h4, h8b]
      omega
    rw [show arHeaderBytes ++ (serializeEntry a ++ (u32le (esize b2) ++
        (u32le p2.length ++ (u32le (20 + b.name.length + 1) ++ (b.filedate ++ (b.name ++ (0 ::
          (Y.take p2.length ++ (serializeEntry c ++
            (Y.drop p2.length).drop (serializeEntry c).length))))))))) =
      ((arHeaderBytes ++ serializeEntry a) ++ (u32le (esize b2) ++ (u32le p2.length ++
        (u32le (20 + b.name.length + 1) ++ (b.filedate ++ (b.name ++ [0])))))) ++
        (Y.take p2.length ++ (serializeEntry c ++
          (Y.drop p2.length).drop (serializeEntry c).length)) by simp]
    rw [← hPB4, writeBytes_at _ _ _ _ (by rw [List.length_take]; omega)]
    rw [List.drop_eq_nil_of_le (by rw [List.length_take]; omega)]
    simp
  have hD4 : arHeaderBytes ++ (serializeEntry a ++ (u32le (esize b2) ++ (u32le p2.length ++
      (u32le (20 + b.name.length + 1) ++ (b.filedate ++ (b.name ++ (0 ::
        (p2 ++ (serializeEntry c ++
          (Y.drop p2.length).drop (serializeEntry c).length))))))))) =
      serializeAr [a, b2, c] ++ (Y.drop p2.length).drop (serializeEntry c).length := by
    rw [hb2]
    simp [serializeAr, serializeEntries, serializeEntry]
  have hlenfix : ar.len + esize b2 - esize b = (serializeAr [a, b2, c]).length := by
    rw [hlen2val, hlenval]
    omega
  have hrun : siswa_arEntryUpdateEx ar b.name p2 = some (true,
      { ar with
          data := arHeaderBytes ++ (serializeEntry a ++ (u32le (esize b2) ++
            (u32le p2.length ++ (u32le (20 + b.name.length + 1) ++ (b.filedate ++
              (b.name ++ (0 :: (p2 ++ (serializeEntry c ++
                (Y.drop p2.length).drop (serializeEntry c).length))))))))),
          len := (serializeAr [a, b2, c]).length }) := by
    unfold siswa_arEntryUpdateEx
    rw [hfind]
    dsimp only
    rw [hoz, hnz, hple, if_pos hassert]
    rw [hd1, hd2, htail, hd3, hofsval, hd4, hlenfix]
  refine ⟨_, hrun, rfl, ?_, ?_, ?_, ?_, ?_, ?_⟩
  · show (arHeaderBytes ++ (serializeEntry a ++ (u32le (esize b2) ++ (u32le p2.length ++
      (u32le (20 + b.name.length + 1) ++ (b.filedate ++ (b.name ++ (0 ::
        (p2 ++ (serializeEntry c ++
          (Y.drop p2.length).drop (serializeEntry c).length)))))))))).take
      (serializeAr [a, b2, c]).length = serializeAr [a, b2, c]
    rw [hD4, List.take_left]
  · show (arHeaderBytes ++ (serializeEntry a ++ (u32le (esize b2) ++ (u32le p2.length ++
      (u32le (20 + b.name.length + 1) ++ (b.filedate ++ (b.name ++ (0 ::
        (p2 ++ (serializeEntry c ++
          (Y.drop p2.length).drop (serializeEntry c).length)))))))))).take (16 + esize a) =
      ar.data.take (16 + esize a)
    rw [hD4]
    rw [show serializeAr [a, b2, c] ++ (Y.drop p2.length).drop (serializeEntry c).length =
      (arHeaderBytes ++ serializeEntry a) ++ (serializeEntry b2 ++ (serializeEntry c ++
        (Y.drop p2.length).drop (serializeEntry c).length)) by
      simp [serializeAr, serializeEntries]]
    rw [hsplitb, ← hP0, List.take_left, List.take_left]
  · show ((arHeaderBytes ++ (serializeEntry a ++ (u32le (esize b2) ++ (u32le p2.length ++
      (u32le (20 + b.name.length + 1) ++ (b.filedate ++ (b.name ++ (0 ::
        (p2 ++ (serializeEntry c ++
          (Y.drop p2.length).drop (serializeEntry c).length)))))))))).drop
      (16 + esize a + esize b2)).take (serializeEntry c).length =
      (ar.data.drop (16 + esize a + esize b)).take (serializeEntry c).length
    have hL2 : ((arHeaderBytes ++ serializeEntry a) ++ serializeEntry b2).length =
        16 + esize a + esize b2 := by
      simp [List.length_append, arHeaderBytes_length, hsla, hslb2]
      omega
    have hRB : ((arHeaderBytes ++ serializeEntry a) ++ serializeEntry b).length =
        16 + esize a + esize b := by
      simp [List.length_append, arHeaderBytes_length, hsla, hslb]
      omega
    rw [hD4]
    rw [show serializeAr [a, b2, c] ++ (Y.drop p2.length).drop (serializeEntry c).length =
      ((arHeaderBytes ++ serializeEntry a) ++ serializeEntry b2) ++ (serializeEntry c ++
        (Y.drop p2.length).drop (serializeEntry c).length) by
      simp [serializeAr, serializeEntries]]
    rw [List.drop_left' hL2]
    rw [show ar.data = ((arHeaderBytes ++ serializeEntry a) ++ serializeEntry b) ++
        (serializeEntry c ++ pad) by rw [hsplitb]; simp]
    rw [List.drop_left' hRB, List.take_left, List.take_left]
  · have hiter := arIter_serialized [a, b2, c]
      ((Y.drop p2.length).drop (serializeEntry c).length)
      { ar with
          data := arHeaderBytes ++ (serializeEntry a ++ (u32le (esize b2) ++
            (u32le p2.length ++ (u32le (20 + b.name.length + 1) ++ (b.filedate ++
              (b.name ++ (0 :: (p2 ++ (serializeEntry c ++
                (Y.drop p2.length).drop (serializeEntry c).length))))))))),
          len := (serializeAr [a, b2, c]).length }
      hwfall2 hD4 rfl
    rw [hiter, hb2]
    simp
  · have hfind2 := arEntryFindEx_serialized [a, b2, c]
      ((Y.drop p2.length).drop (serializeEntry c).length)
      { ar with
          data := arHeaderBytes ++ (serializeEntry a ++ (u32le (esize b2) ++
            (u32le p2.length ++ (u32le (20 + b.name.length + 1) ++ (b.filedate ++
              (b.name ++ (0 :: (p2 ++ (serializeEntry c ++
                (Y.drop p2.length).drop (serializeEntry c).length))))))))),
          len := (serializeAr [a, b2, c]).length }
      b.name hwfall2 hD4 rfl
    rw [hfind2]
    have hm2 : nameMatches b.name b2.name = true := by
      rw [hb2]
      exact nameMatches_refl b.name
    simp [findSerialized, hnm, hm2]
  · show siswa_arEntryGetData (arHeaderBytes ++ (serializeEntry a ++ (u32le (esize b2) ++
      (u32le p2.length ++ (u32le (20 + b.name.length + 1) ++ (b.filedate ++ (b.name ++ (0 ::
        (p2 ++ (serializeEntry c ++
          (Y.drop p2.length).drop (serializeEntry c).length)))))))))) (16 + esize a) = p2
    have hacc := entry_access_at b2 (arHeaderBytes ++ serializeEntry a)
      (serializeEntry c ++ (Y.drop p2.length).drop (serializeEntry c).length)
      (arHeaderBytes ++ (serializeEntry a ++ (u32le (esize b2) ++ (u32le p2.length ++
        (u32le (20 + b.name.length + 1) ++ (b.filedate ++ (b.name ++ (0 ::
          (p2 ++ (serializeEntry c ++
            (Y.drop p2.length).drop (serializeEntry c).length)))))))))) hwb2
      (by rw [hb2]; simp [serializeEntry])
    rw [hP0] at hacc
    rw [hacc.2.1, hb2]

/-- C2.  The claim states that `siswa_arlEntryRemoveEx` decrements the
archive size slot by the same `20 + name_len + 1` that the add credited.
The code however subtracts only `1 + name_len`: after adding and then
removing the single entry `a` on a fresh linker, the slot reads 20 instead
of the 0 required by the size accounting invariant, while no entry remains
resident. -/
theorem arl_size_accounting_asymmetric :
    siswa_arlCreateArlContentEx (List.replicate 64 0) 1 = some arlC2base ∧
    siswa_arlEntryAddEx arlC2base [97] 0 = some (true, arlC2added) ∧
    readU32 (arlC2added.data.drop 8) = 20 + 1 + 1 ∧
    siswa_arlEntryRemoveEx arlC2added [97] 0 = some (true, arlC2removed) ∧
    readU32 (arlC2removed.data.drop 8) = 20 ∧
    siswa_arlGetEntryCount arlC2removed = 0 ∧
    readU32 (arlC2removed.data.drop 8) ≠ 0 := by
  decide

/-- C6.  `siswa_arlMakeBufferEx` initializes the cursor to
`sizeof(siArHeader)` = 16, not to the linker header end `8 + 4 x
archiveCount`.  On a linker with `archiveCount = 1` the header ends at 12,
so the handle starts misaligned and the first poll does not return the
first linker entry (which sits at offset 12). -/
theorem arl_cursor_not_header_end :
    siswa_arlMakeBufferEx arlCount1Buf 19 19 = some arlCount1Handle ∧
    arlCount1Handle.curOffset = 16 ∧
    siswa_arlGetHeaderLength arlCount1Handle = 12 ∧
    arlCount1Handle.curOffset ≠ siswa_arlGetHeaderLength arlCount1Handle ∧
    (siswa_arlEntryPoll arlCount1Handle).1 = some 16 ∧
    (siswa_arlEntryPoll arlCount1Handle).1 ≠ some 12 := by
  decide

/-- C7 counterexample.  The claim says a buffer whose first four bytes are
the ARL2 magic still yields a Regular archive handle without a fatal abort;
the source instead hits `SISWA_ASSERT(identifier != SISWA_IDENTIFIER_ARL2)`,
modelled as `none`. -/
theorem ar_make_arl2_aborts :
    siswa_arMakeBufferEx (u32le SISWA_IDENTIFIER_ARL2 ++ [0, 0, 0, 0]) 8 8 = none := by
  decide

/-- C7 as amended.  A buffer carrying none of the three magics gives a
Regular archive handle; the ARL2 magic makes `siswa_arMakeBufferEx` hit the
fatal assertion; and `siswa_arlMakeBufferEx` never returns a handle for a
buffer that is neither ARL2 nor XCompression (it hits its own fatal
assertion rather than producing a Regular handle). -/
theorem make_buffer_kind_classification (data : List Nat) (len cap : Nat)
    (hlen : len ≤ cap) :
    (readU32 data ≠ SISWA_IDENTIFIER_XCOMPRESSION →
     readU32 data ≠ SISWA_IDENTIFIER_SEGS →
     readU32 data ≠ SISWA_IDENTIFIER_ARL2 →
     siswa_arMakeBufferEx data len cap =
       some { data := data, len := len, cap := cap, compression := .NONE, curOffset := 16 }) ∧
    (readU32 data = SISWA_IDENTIFIER_ARL2 →
     siswa_arMakeBufferEx data len cap = none) ∧
    (readU32 data ≠ SISWA_IDENTIFIER_XCOMPRESSION →
     readU32 data ≠ SISWA_IDENTIFIER_ARL2 →
     siswa_arlMakeBufferEx data len cap = none) := by
  refine ⟨?_, ?_, ?_⟩
  · intro hx hs ha
    simp [siswa_arMakeBufferEx, hlen, hx, hs, ha]
  · intro ha
    have hx : readU32 data ≠ SISWA_IDENTIFIER_XCOMPRESSION := by
      rw [ha]; decide
    have hs : readU32 data ≠ SISWA_IDENTIFIER_SEGS := by
      rw [ha]; decide
    simp only [siswa_arMakeBufferEx, if_pos hlen, ha]
    rw [if_neg (by decide), if_neg (by decide), if_pos trivial]
  · intro hx ha
    simp [siswa_arlMakeBufferEx, hlen, hx, ha]

/-- C7 witness: the classification applied to a plain archive buffer. -/
theorem make_buffer_kind_classification_witness :
    siswa_arMakeBufferEx [1, 2, 3, 4, 0, 0, 0, 0] 8 8 =
      some { data := [1, 2, 3, 4, 0, 0, 0, 0], len := 8, cap := 8,
             compression := .NONE, curOffset := 16 } ∧
    siswa_arMakeBufferEx (u32le SISWA_IDENTIFIER_ARL2 ++ [0, 0, 0, 0]) 8 8 = none ∧
    siswa_arlMakeBufferEx [1, 2, 3, 4, 0, 0, 0, 0] 8 8 = none := by
  refine ⟨?_, ?_, ?_⟩
  · exact (make_buffer_kind_classification [1, 2, 3, 4, 0, 0, 0, 0] 8 8 (by decide)).1
      (by decide) (by decide) (by decide)
  · exact (make_buffer_kind_classification (u32le SISWA_IDENTIFIER_ARL2 ++ [0, 0, 0, 0]) 8 8
      (by decide)).2.1 (by decide)
  · exact (make_buffer_kind_classification [1, 2, 3, 4, 0, 0, 0, 0] 8 8 (by decide)).2.2
      (by decide) (by decide)

/-- C4 counterexample.  The find scan is a prefix match, so updating the
entry named `x` in the archive `[xy, x, z]` locates and rewrites the first
entry `xy` instead: the update succeeds but the byte range of the first
entry is not left identical, contradicting the claim as stated for every
valid three entry archive. -/
theorem ar_update_prefix_hits_wrong_entry :
    siswa_arEntryFindEx c4xar [120] = some 16 ∧
    siswa_arEntryUpdateEx c4xar [120] [9] = some (true, c4xres) ∧
    c4xres.data.take (16 + esize c4xa) ≠ c4xar.data.take (16 + esize c4xa) := by
  decide

/-- C4 witness: the frame theorem applied to a concrete three entry archive
with a larger replacement payload. -/
theorem ar_update_preserves_frame_witness :
    ∃ ar2, siswa_arEntryUpdateEx c4ar c4b.name [9, 9] = some (true, ar2) ∧
      arIter ar2 = [(c4a.name, c4a.payload), (c4b.name, [9, 9]), (c4c.name, c4c.payload)] := by
  obtain ⟨ar2, h1, h2, h3, h4, h5, h6, h7, h8⟩ :=
    ar_update_preserves_frame c4a c4b c4c { c4b with payload := [9, 9] } [9, 9]
      (List.replicate 32 0) c4ar rfl (by decide) (by decide) (by decide) (by decide)
      (by decide) rfl rfl rfl (by decide)
  exact ⟨ar2, h1, h6⟩

/-- C9.  Whenever `siswa_arEntryAddEx` succeeds, the handle length grows by
exactly `20 + nameLen + 1 + dataSize` (for sizes below 2 ^ 32, where the
`uint32_t` entry size does not wrap); and Scenario A concretely: create
empty with capacity 512, add `(msg.txt, Hello)`, then the length is 49, the
entry count 1, the found entry has `dataSize` 5 and its data reads `Hello`. -/
theorem ar_add_length_arithmetic :
    (∀ (ar ar2 : siArFile) (name dat : List Nat),
        20 + name.length + 1 + dat.length < 4294967296 →
        siswa_arEntryAddEx ar name dat = some (true, ar2) →
        ar2.len = ar.len + (20 + name.length + 1 + dat.length)) ∧
    ((siswa_arCreateArContentEx (List.replicate 512 0)).bind
        (fun ar => siswa_arEntryAddEx ar msgName helloBytes) = some (true, scenarioA) ∧
     scenarioA.len = 49 ∧
     siswa_arGetEntryCount scenarioA = 1 ∧
     siswa_arEntryFindEx scenarioA msgName = some 16 ∧
     readU32 (scenarioA.data.drop 20) = 5 ∧
     siswa_arEntryGetData scenarioA.data 16 = helloBytes) := by
  constructor
  · intro ar ar2 name dat hsmall h
    unfold siswa_arEntryAddEx at h
    split at h
    · simp at h
    · dsimp only at h
      split at h
      · simp only [Option.some.injEq, Prod.mk.injEq, true_and] at h
        subst h
        dsimp only
        rw [Nat.mod_eq_of_lt (by omega : dat.length + name.length + 1 + 20 < 4294967296)]
        omega
      · simp at h
  · decide

/-- C9 witness: the length arithmetic instantiated on Scenario A. -/
theorem ar_add_length_arithmetic_witness :
    scenarioA.len =
      (siswa_arCreateArContentEx (List.replicate 512 0)).elim 0 siArFile.len +
        (20 + msgName.length + 1 + helloBytes.length) := by
  have h := ar_add_length_arithmetic.1
    ((siswa_arCreateArContentEx (List.replicate 512 0)).getD default) scenarioA
    msgName helloBytes (by decide) (by decide)
  rw [h]; decide

/-- C10.  Whenever `siswa_arEntryAddEx` reports a duplicate name, the handle
is returned completely unchanged (the duplicate scan runs on a struct copy
of the handle, and the function returns before writing anything). -/
theorem ar_add_duplicate_unchanged (ar ar2 : siArFile) (name dat : List Nat)
    (h : siswa_arEntryAddEx ar name dat = some (false, ar2)) : ar2 = ar := by
  unfold siswa_arEntryAddEx at h
  split at h
  · simp at h
    exact h.symm
  · dsimp only at h
    split at h
    · simp at h
    · simp at h

/-- C10 witness: adding `msg.txt` again to Scenario A fails and hands back
the identical handle. -/
theorem ar_add_duplicate_unchanged_witness :
    siswa_arEntryAddEx scenarioA msgName helloBytes = some (false, scenarioA) := by
  have h : siswa_arEntryAddEx scenarioA msgName helloBytes =
      some (false, ((siswa_arEntryAddEx scenarioA msgName helloBytes).map Prod.snd).getD default) := by
    decide
  rw [h, ar_add_duplicate_unchanged scenarioA
    (((siswa_arEntryAddEx scenarioA msgName helloBytes).map Prod.snd).getD default)
    msgName helloBytes h]

end SUA
